import Mathlib

/-
  Verification of the location-code parsing/splitting/recombination engine of
  tigertamer (src/lib/util/parser.py), shallowly embedded in Lean 4.

  Strings are modelled as `List Char`; Python string operations (`split`,
  `strip`, `partition`, `count`, `lower`) are given their Python semantics on
  `List Char`.  Machine-level details that cannot influence the verified
  claims (logging, colour output, file paths) are omitted.
-/

namespace TT

/-- Python strings are modelled as lists of characters. -/
abbrev Str := List Char

/-- Whitespace characters removed by Python `str.strip()` (ASCII subset;
the source data never contains non-ASCII whitespace). -/
def pySpace (c : Char) : Bool :=
  c = ' ' || c = '\t' || c = '\n' || c = '\x0d' || c = '\x0b' || c = '\x0c'

/-- Python `s.strip()`: drop leading and trailing whitespace. -/
def pyStrip (s : Str) : Str :=
  ((s.dropWhile pySpace).reverse.dropWhile pySpace).reverse

/-- Python `s.split(sep)` for a one-character separator: keeps empty pieces,
`"".split(sep) == ['']`. -/
def pySplit : Str → Char → List Str
  | [], _ => [[]]
  | c :: rest, sep =>
    if c = sep then [] :: pySplit rest sep
    else
      match pySplit rest sep with
      | [] => [[c]]
      | t :: ts => (c :: t) :: ts

/-- Number of occurrences of a character in a string (Python `s.count(c)`
for a single-character needle). -/
def pyCountChar (s : Str) (c : Char) : Nat :=
  (s.filter (fun x => x = c)).length

/-- Python `s.lower().count('r')`: both `r` and `R` are counted. -/
def rCount (s : Str) : Nat :=
  (s.filter (fun x => x = 'r' || x = 'R')).length

/-- Numeric value of a list of decimal digit characters (most significant
first), as Python `int` would compute on a pure digit string. -/
def digitsVal (ds : Str) : Nat :=
  ds.foldl (fun a c => a * 10 + (c.toNat - 48)) 0

/-- Helper for Python `int(str)`: after an optional sign the rest must be
decimal digits, with single underscores allowed between digits
(Python 3.6+ numeric-literal grouping). -/
def pyIntDigitsOk : Str → Bool
  | [] => false
  | c :: rest =>
    c.isDigit && pyIntDigitsRest rest
where
  pyIntDigitsRest : Str → Bool
  | [] => true
  | c :: rest =>
    if c = '_' then
      match rest with
      | [] => false
      | d :: rest2 => d.isDigit && pyIntDigitsRest rest2
    else c.isDigit && pyIntDigitsRest rest

/-- Python `int(s)` for a string argument: strips whitespace, accepts an
optional `+`/`-` sign followed by digits (underscore grouping allowed);
`none` models the `ValueError` raised otherwise. -/
def pyIntOfStr (s : Str) : Option Int :=
  let t := pyStrip s
  match t with
  | '-' :: rest =>
    if pyIntDigitsOk rest then some (-(digitsVal (rest.filter Char.isDigit) : Int)) else none
  | '+' :: rest =>
    if pyIntDigitsOk rest then some ((digitsVal (rest.filter Char.isDigit) : Int)) else none
  | _ =>
    if pyIntDigitsOk t then some ((digitsVal (t.filter Char.isDigit) : Int)) else none

/-- Python `str(n)` for a natural number: auxiliary with fuel (the fuel `n`
is always sufficient since `n / 10 < n` for `n ≥ 10`). -/
def natToStrAux : Nat → Nat → Str
  | 0, n => [Nat.digitChar (n % 10)]
  | fuel + 1, n =>
    if n < 10 then [Nat.digitChar n]
    else natToStrAux fuel (n / 10) ++ [Nat.digitChar (n % 10)]

/-- Python `str(n)` for a natural number. -/
def natToStr (n : Nat) : Str := natToStrAux n n

/-- Python `str(n)` for an `int`. -/
def intToStr (n : Int) : Str :=
  if n < 0 then '-' :: natToStr n.natAbs else natToStr n.toNat

/-! ### The quantity regexes

`cab_multi_count_pat = re.compile(r'\((\d{1,3})\)')` (parser.py line 37) and
`trim_cab_count` (line 360, `re.sub(r'\(\d{1,3}\)', '', cabno)`).

A match of this pattern is a `(`, then one to three digits, then `)`.  With a
greedy bounded repetition the group matched after a `(` is exactly the maximal
digit run `r` following it, provided `1 ≤ |r| ≤ 3` and the next character is
`)` (backtracking to a shorter run always fails because the character after a
shorter run is still a digit).  No match can begin strictly inside another
match (every interior character of a match is a digit or `)`, never `(`), so
`re`'s non-overlapping left-to-right scan visits exactly the same matches as a
scan that always advances one character; the scanners below advance one
character on a mismatch and may therefore be written structurally. -/

/-- Attempt to match `\d{1,3}\)` at the head of `rest` (the text after a
`(`).  Returns the numeric value of the digit group and the number of
characters consumed (digits plus the closing `)`). -/
def parenGroup (rest : Str) : Option (Nat × Nat) :=
  let ds := rest.takeWhile Char.isDigit
  if 1 ≤ ds.length ∧ ds.length ≤ 3 ∧ (rest.drop ds.length).head? = some ')' then
    some (digitsVal ds, ds.length + 1)
  else none

/-- `cab_multi_count_pat.findall(cabno)`: the values of all `(<1-3 digits>)`
groups, left to right. -/
def cabMultiCounts : Str → List Nat
  | [] => []
  | c :: rest =>
    if c = '(' then
      match parenGroup rest with
      | some (v, _) => v :: cabMultiCounts rest
      | none => cabMultiCounts rest
    else cabMultiCounts rest

/-- `trim_cab_count` (parser.py line 360): `re.sub(r'\(\d{1,3}\)', '', cabno)`.
Structural via a fuel argument; fuel `s.length` always suffices since every
step consumes at least one character. -/
def trimCabCountAux : Nat → Str → Str
  | 0, s => s
  | fuel + 1, s =>
    match s with
    | [] => []
    | c :: rest =>
      if c = '(' then
        match parenGroup rest with
        | some (_, k) => trimCabCountAux fuel (rest.drop k)
        | none => c :: trimCabCountAux fuel rest
      else c :: trimCabCountAux fuel rest

/-- `trim_cab_count(cabno)`. -/
def trim_cab_count (s : Str) : Str := trimCabCountAux s.length s

/-! ### The core data record

`MozaikMasterPart` (parser.py line 720) and its width-less subclass
`MozaikPart` (line 1079) share all behaviour relevant to the claims; the
subclass simply lacks the `width` attribute.  Both are modelled by one
structure in which `width = none` plays the role of the missing (or `None`)
attribute: a constructed `MozaikPart` never sets `width`, and every operation
(`copy`, `similar_part`, field comparison) treats an absent attribute and an
attribute holding `None` identically, so the unification is faithful. -/

/-- The value supplied for the `count` field: Python `str`, `int`, or
`None`. -/
inductive CountVal where
  | int (n : Int)
  | str (s : Str)
  | pynone
deriving DecidableEq, Repr

/-- The constructor argument of `MozaikMasterPart.__init__` (a dict keyed by
the header), restricted to the header fields — every call site in the
repository passes exactly these keys. -/
structure PartData where
  count : CountVal
  width : Option Str := none
  length : Option Str := none
  type : Option Str := none
  no : Option Str := none
  extra_data : Option Str := none
deriving DecidableEq, Repr

/-- A constructed part record. `no` is always a string after construction
(a falsy location is replaced by the empty string); the other string fields
keep `none` for Python `None`. -/
structure MozaikPart where
  count : Int
  width : Option Str := none
  length : Option Str := none
  type : Option Str := none
  no : Str := []
  extra_data : Option Str := none
deriving DecidableEq, Repr

/-- `has_multi_cab` (parser.py line 888): `'&' in self.no`. -/
def has_multi_cab (no : Str) : Bool := no.contains '&'

/-- `has_multi_room` (parser.py line 893):
`self.no.lower().count('r') > 1 and ' ' in self.no`. -/
def has_multi_room (no : Str) : Bool := decide (rCount no > 1) && no.contains ' '

/-- `has_multi` (parser.py line 880): false for a falsy `no`. -/
def has_multi (no : Str) : Bool :=
  if no = [] then false else has_multi_cab no || has_multi_room no

/-- `get_cab_count` (parser.py line 848): the sum of all `(<1-3 digits>)`
groups in the token, or `1` if there is none (the `multi_allowed` parameter
only affects logging). -/
def get_cab_count (cabno : Str) : Int :=
  match cabMultiCounts cabno with
  | [] => 1
  | l => (l.map (fun n => (n : Int))).sum

/-- The value `fix_cab_count` (parser.py line 817) assigns to `count` when
`has_multi` holds:
`sum(self.get_cab_count(cab) for room in self.no.split(' ') for cab in room.split('&'))`. -/
def fix_cab_count_value (no : Str) : Int :=
  ((pySplit no ' ').map
    (fun room => ((pySplit room '&').map get_cab_count).sum)).sum

/-- The `value_map` replacement (parser.py line 725), applied to the raw
`type` value before stripping. -/
def value_map_type (v : Option Str) : Option Str :=
  if v = some (("{Drawer Front Size}").toList) then some (("Drawer Front").toList)
  else v

/-- The body of `MozaikMasterPart.__init__` after the `count` coercion
succeeded with value `n`: replacement mapping and stripping of the fields,
defaulting of a falsy location to the empty string, and the final
`fix_cab_count`. -/
def mkPartCore (d : PartData) (n : Int) : MozaikPart :=
  let no := pyStrip (d.no.getD [])
  { count := if has_multi no then fix_cab_count_value no else n
    width := d.width.map pyStrip
    length := d.length.map pyStrip
    type := (value_map_type d.type).map pyStrip
    no := no
    extra_data := d.extra_data.map pyStrip }

/-- Coercion of the supplied `count`: `int(self.count)` after the stripping
loop; `none` models the `ValueError` that `__init__` re-raises on
`TypeError`/`ValueError` (parser.py lines 762-769). -/
def coerceCount : CountVal → Option Int
  | .int n => some n
  | .str s => pyIntOfStr (pyStrip s)
  | .pynone => none

/-- `MozaikMasterPart.__init__` / `MozaikPart.__init__`: fails exactly when
the `count` value cannot be coerced to an integer. -/
def initPart (d : PartData) : Option MozaikPart :=
  (coerceCount d.count).map (mkPartCore d)

/-- The field dict `{field: getattr(self, field) for field in self.header}`
used by `copy()` (parser.py line 805). -/
def dataOf (p : MozaikPart) : PartData :=
  { count := .int p.count
    width := p.width
    length := p.length
    type := p.type
    no := some p.no
    extra_data := p.extra_data }

/-- `copy()` (parser.py line 805): re-runs `__init__` on the field dict.
The `count` coercion cannot fail on an `int`, so the copy is total. -/
def copyPart (p : MozaikPart) : MozaikPart :=
  mkPartCore (dataOf p) p.count

/-! ### Splitting

`split_rooms` (parser.py line 988), `split_room_cabs` (line 934) and
`split_parts` (line 920).  The Python methods mutate parts in place; the
embedding passes values explicitly and additionally returns the final value
of each processed room part, so that the caller (`split_parts`) can recover
the mutation of the receiver when `split_rooms` returned the aliased
`[self]`. -/

/-- `split_rooms` (parser.py line 988).  In the multi-room branch each part
is a fresh `copy()` whose `no` and `count` are overwritten afterwards. -/
def split_rooms (p : MozaikPart) : List MozaikPart :=
  if !has_multi_room p.no then [p]
  else
    let roomnos := pySplit p.no ' '
    if roomnos.length = 1 then [copyPart p]
    else
      roomnos.map (fun roomno =>
        { copyPart p with
          no := roomno
          count := (pyCountChar roomno '&' : Int) + get_cab_count roomno })

/-- The loop body of `split_room_cabs` for a roompart that is not
multi-room (parser.py lines 952-974).  Returns the cab parts appended for
this roompart together with the roompart's own final (possibly mutated)
value; in the single-cab branch the mutated roompart itself is appended. -/
def processRoompart (rp : MozaikPart) : List MozaikPart × MozaikPart :=
  let rp1 := if rp.no.contains ':' then rp
             else { rp with no := (("R1:").toList) ++ rp.no }
  let roomno := rp1.no.takeWhile (fun x => x ≠ ':')
  let cabs := (rp1.no.dropWhile (fun x => x ≠ ':')).drop 1
  let cabnos := pySplit cabs '&'
  if cabnos.length = 1 then
    let rp2 := { rp1 with count := get_cab_count rp1.no }
    ([rp2], rp2)
  else
    (cabnos.map (fun cab =>
      { copyPart rp1 with no := roomno ++ ':' :: cab, count := get_cab_count cab }),
     rp1)

/-- The main loop of `split_room_cabs` (parser.py lines 945-974): walks the
roomparts once, accumulating `(cabparts, multiroom, finals)` in order. -/
def split_room_cabs_step : List MozaikPart →
    List MozaikPart × List MozaikPart × List MozaikPart
  | [] => ([], [], [])
  | rp :: rest =>
    let r := split_room_cabs_step rest
    if has_multi_room rp.no then (r.1, rp :: r.2.1, rp :: r.2.2)
    else ((processRoompart rp).1 ++ r.1, r.2.1, (processRoompart rp).2 :: r.2.2)

/-- `split_room_cabs` (parser.py line 934).  The first component is the
returned `cabparts` list, the second the final values of the processed
roomparts (for the caller's alias bookkeeping).  The deferred multi-room
recovery path recurses on a fuel argument; fuel 2 always suffices because
the deferred roomparts are pieces of a split on spaces and hence never
multi-room themselves (the fuel-0 branch is unreachable from
`split_parts`). -/
def split_room_cabs_aux : Nat → List MozaikPart → List MozaikPart × List MozaikPart
  | fuel, roomparts =>
    let r := split_room_cabs_step roomparts
    if r.2.1.isEmpty then (r.1, r.2.2)
    else
      match fuel with
      | 0 => (r.1, r.2.2)
      | fuel' + 1 =>
        let deferredroomparts := (r.2.1.map split_rooms).flatten
        (r.1 ++ (split_room_cabs_aux fuel' deferredroomparts).1, r.2.2)

/-- `split_parts` (parser.py line 920).  Returns the result list together
with the final value of the receiver: when `split_rooms` returned the
aliased `[self]` (the not-multi-room case) the receiver is mutated by
`split_room_cabs`; otherwise the roomparts are fresh copies and the
receiver is untouched. -/
def split_parts (p : MozaikPart) : List MozaikPart × MozaikPart :=
  if !has_multi p.no then ([p], p)
  else
    let res := split_room_cabs_aux 2 (split_rooms p)
    if has_multi_room p.no then (res.1, p)
    else (res.1, res.2.headD p)

/-- `similar_part` (parser.py line 898) for two distinct part objects
(`other is self` is object identity, never satisfied by two distinct list
positions holding different values).  For width-less parts the width
comparison is vacuous (both `none`), matching the header-driven loop of the
subclass. -/
def optTruthy (o : Option Str) : Bool :=
  match o with
  | some s => !s.isEmpty
  | none => false

/-- Python truthiness of a part (`__bool__`, parser.py line 781). -/
def part_truthy (p : MozaikPart) : Bool :=
  decide (p.count ≠ 0) || optTruthy p.width || optTruthy p.length ||
    optTruthy p.type || !p.no.isEmpty || optTruthy p.extra_data

def similar_part (p other : MozaikPart) : Bool :=
  part_truthy other &&
  (decide (p.width = other.width) && decide (p.length = other.length) &&
   decide (p.type = other.type) && decide (p.extra_data = other.extra_data)) &&
  decide (trim_cab_count p.no = trim_cab_count other.no)

/-! ### The part tree

`MozaikPartTree` is a nested insertion-ordered dict
room → cab → length → extra_data → type → count (parser.py line 1086 for the
width-less parts that `combine_parts` works on).  It is modelled as nested
association lists; the `label` bookkeeping only affects printing and is
implicit in the nesting depth.  One generic level construction covers all
five levels: each level is an association list whose values belong to the
next level down, with `Int` counts at the bottom. -/

/-- First-occurrence lookup in an association list (Python `d[k]` /
`d.get(k)` for dicts, which hold each key once). -/
def alookup {κ α : Type} [DecidableEq κ] (k : κ) : List (κ × α) → Option α
  | [] => none
  | e :: t => if e.1 = k then some e.2 else alookup k t

/-- Update-or-append: Python `d[k] = f(d.get(k))`, keeping an existing key
at its position and appending a new key at the end (dict insertion
order). -/
def updateA {κ α : Type} [DecidableEq κ] (k : κ) (f : Option α → α) :
    List (κ × α) → List (κ × α)
  | [] => [(k, f none)]
  | e :: t => if e.1 = k then (k, f (some e.2)) :: t else e :: updateA k f t

/-- `MozaikPartTree.merge_dicts` (parser.py line 1241): keys of `d1` keep
their order and are merged with `m` where `d2` also has them; new keys of
`d2` are appended in `d2`'s order. -/
def mergeA {κ α : Type} [DecidableEq κ] (m : α → α → α)
    (d1 d2 : List (κ × α)) : List (κ × α) :=
  (d1.map (fun e =>
    match alookup e.1 d2 with
    | some w => (e.1, m e.2 w)
    | none => e)) ++
  d2.filter (fun e => (alookup e.1 d1).isNone)

/-- The operations of one tree level: `β` is the tree type, `π` the type of
key paths from this level down to the counts. -/
structure LevelOps (β : Type) (π : Type) where
  empty : β
  insert : β → π → Int → β
  lookup : β → π → Option Int
  emit : β → List (π × Int)
  merge : β → β → β
  WF : β → Prop

/-- The bottom of the tree: a bare count.  `insert` is the
`d[k] = d.setdefault(k, 0) + count` accumulation seen from below, `merge`
is the `d[k] += v` branch of `merge_dicts`. -/
def baseOps : LevelOps Int Unit where
  empty := 0
  insert := fun b _ c => b + c
  lookup := fun b _ => some b
  emit := fun b => [((), b)]
  merge := (· + ·)
  WF := fun _ => True

/-- One dict level on top of a level `L`: `insert` is
`d.setdefault(k, <empty sublevel>)` followed by the sub-level insertion
(the code's setdefault chain), `emit` the depth-first walk of
`iter_part_info`, `merge` is `merge_dicts`. -/
def liftOps {β π : Type} (κ : Type) [DecidableEq κ] (L : LevelOps β π) :
    LevelOps (List (κ × β)) (κ × π) where
  empty := []
  insert := fun t kp c => updateA kp.1 (fun o => L.insert (o.getD L.empty) kp.2 c) t
  lookup := fun t kp => (alookup kp.1 t).bind (fun s => L.lookup s kp.2)
  emit := fun t => t.flatMap (fun e => (L.emit e.2).map (fun q => ((e.1, q.1), q.2)))
  merge := mergeA L.merge
  WF := fun t => ((t.map Prod.fst).Nodup ∧ ∀ e ∈ t, L.WF e.2 ∧ L.emit e.2 ≠ [])

/-- type → count. -/
def Ops0 := liftOps (Option Str) baseOps
/-- extra_data → type → count. -/
def Ops1 := liftOps (Option Str) Ops0
/-- length → extra_data → type → count. -/
def Ops2 := liftOps (Option Str) Ops1
/-- cab → length → extra_data → type → count. -/
def Ops3 := liftOps Str Ops2
/-- room → cab → length → extra_data → type → count: the full tree of
`MozaikPart.tree` (parser.py line 1086). -/
def Ops4 := liftOps Str Ops3

/-- The tree type of `MozaikPart.tree`. -/
abbrev T4 := List (Str × List (Str × List (Option Str × List (Option Str × List (Option Str × Int)))))

/-- The key path of one atomic part inside the tree. -/
abbrev Path4 := Str × Str × Option Str × Option Str × Option Str × Unit

instance : DecidableEq (Option Str × Option Str × Option Str × Unit) :=
  inferInstance

instance : DecidableEq Path4 := inferInstance

/-- `room, cab = part.no.split(':')` (a Python 2-unpacking, failing unless
the split yields exactly two pieces), with `cab = trim_cab_count(cab)`
(parser.py lines 1103-1104). -/
def partTreePath (q : MozaikPart) : Option Path4 :=
  match pySplit q.no ':' with
  | [room, cab] => some (room, trim_cab_count cab, q.length, q.extra_data, q.type, ())
  | _ => none

/-- `MozaikPart.tree` (parser.py line 1086): folds the setdefault chain over
every part of `split_parts()`. -/
def part_tree (p : MozaikPart) : Option T4 :=
  (split_parts p).1.foldlM
    (fun t q => (partTreePath q).map (fun pa => Ops4.insert t pa q.count))
    Ops4.empty

/-- The room-level tree accumulated by `MozaikFile.tree` (parser.py line
706): `tree.update(part.tree())` for every part, i.e. iterated
`merge_dicts`. -/
def file_room_tree (parts : List MozaikPart) : Option T4 :=
  parts.foldlM (fun acc p => (part_tree p).map (fun pt => Ops4.merge acc pt)) Ops4.empty

/-- `val or ''` of `iter_part_info` (parser.py line 1225). -/
def orEmpty (o : Option Str) : Str := o.getD []

/-- One emitted part of `iter_part_info`/`to_mozaikparts` (parser.py lines
1205-1303): the location is `"<room>:<cab>"`, annotated with `(<count>)`
when `count > 1`; the dict (width popped) is passed to `MozaikPart`'s
`__init__`.  A zero leaf count turns `partinfo['count']` into `''` and the
comparison `partinfo['count'] > 1` into a `TypeError`, modelled as
failure. -/
def emittedPart (pa : Path4) (cnt : Int) : Option MozaikPart :=
  if cnt = 0 then none
  else
    let no := pa.1 ++ ':' :: pa.2.1 ++ (if cnt > 1 then '(' :: intToStr cnt ++ [')'] else [])
    initPart
      { count := .str (intToStr cnt)
        length := some (orEmpty pa.2.2.1)
        type := some (orEmpty pa.2.2.2.2.1)
        no := some no
        extra_data := some (orEmpty pa.2.2.2.1) }

/-- `to_mozaikparts` (parser.py line 1297). -/
def to_mozaikparts (t : T4) : Option (List MozaikPart) :=
  (Ops4.emit t).mapM (fun e => emittedPart e.1 e.2)

/-- `width or 0` (parser.py line 607): a falsy width is stored as the
integer `0`. -/
inductive WidthVal where
  | zero
  | str (s : Str)
deriving DecidableEq, Repr

def widthOr0 : Option Str → WidthVal
  | none => .zero
  | some [] => .zero
  | some s => .str s

/-- `MozaikFile` (parser.py line 600).  The `filepath`/`parent_file`
bookkeeping is presentation-only (file names) and not modelled. -/
structure MozaikFile where
  width : WidthVal := .zero
  count : Int := 0
  parts : List MozaikPart := []
deriving DecidableEq, Repr

/-- `combine_parts` (parser.py line 644): replaces `parts` with the
flattened tree.  `MozaikFile.tree` wraps the room tree in the singleton
`{self.width: roomtree}` labelled `width`; its only effect on
`to_mozaikparts` is the `partinfo['width']` entry, which is popped before
the parts are built, so the wrapper is dropped here. -/
def combine_parts (f : MozaikFile) : Option MozaikFile :=
  (file_room_tree f.parts).bind
    (fun t => (to_mozaikparts t).map (fun ps => { f with parts := ps }))

/-! ### The master file -/

/-- `MozaikMasterFile` (parser.py line 442); `filepath` is not modelled. -/
structure MozaikMasterFile where
  count : Int := 0
  parts : List MozaikPart := []
deriving DecidableEq, Repr

/-- `parse_row` (parser.py line 523): exactly six columns, the raw count
coerced by `int()` before the part is constructed. -/
def parse_row (row : List Str) (splitp : Bool) : Option (List MozaikPart) :=
  match row with
  | [cnt, width, len, ty, no, extra] =>
    (pyIntOfStr cnt).bind (fun n =>
      (initPart
        { count := .int n, width := some width, length := some len,
          type := some ty, no := some no, extra_data := some extra }).map
        (fun part => if splitp then (split_parts part).1 else [part]))
  | _ => none

/-- One iteration of the row loop of `MozaikMasterFile.parse` (parser.py
lines 516-519): `self.count += sum(p.count for p in parts)` accumulates the
counts of the split parts of the row, and the parts are appended. -/
def parseStep (mf : MozaikMasterFile) (row : List Str) : Option MozaikMasterFile :=
  (parse_row row true).map (fun parts =>
    { mf with
      count := mf.count + (parts.map (fun p => p.count)).sum
      parts := mf.parts ++ parts })

/-- `MozaikMasterFile.parse` (parser.py line 509) over already-read CSV
rows. -/
def parse (rows : List (List Str)) : Option MozaikMasterFile :=
  rows.foldlM parseStep ({} : MozaikMasterFile)

/-- The width-less copy built in `into_width_files` (parser.py line 557):
`MozaikPart({field: getattr(part, field) for field in MozaikFile.header})`
runs `__init__` without a `width` key; the `int` count cannot fail to
coerce. -/
def wpartOf (p : MozaikPart) : MozaikPart :=
  mkPartCore
    { count := .int p.count, length := p.length, type := p.type,
      no := some p.no, extra_data := p.extra_data } p.count

/-- Lexicographic comparison of Python strings (by code point). -/
def strLe : Str → Str → Bool
  | [], _ => true
  | _ :: _, [] => false
  | a :: as, b :: bs => if a = b then strLe as bs else decide (a < b)

/-- Ordering used by `sorted(filedata)` on the width keys.  All repository
data has plain string widths; a `None` key (sorted by Python only when it is
the single key) is placed first. -/
def optStrLe : Option Str → Option Str → Bool
  | none, _ => true
  | some _, none => false
  | some a, some b => strLe a b

def insertSorted (x : Option Str) : List (Option Str) → List (Option Str)
  | [] => [x]
  | y :: ys => if optStrLe x y then x :: y :: ys else y :: insertSorted x ys

/-- `sorted(...)` over distinct keys. -/
def sortKeys (l : List (Option Str)) : List (Option Str) :=
  l.foldr insertSorted []

/-- `into_width_files` (parser.py line 549): groups the parts by width into
an insertion-ordered dict of `MozaikFile`s, emits the files in sorted key
order and combines each.  The final count cross-check only logs. -/
def into_width_files (mf : MozaikMasterFile) : Option (List MozaikFile) :=
  if mf.parts = [] then some []
  else
    let filedata := mf.parts.foldl
      (fun fd part =>
        let q := wpartOf part
        updateA part.width
          (fun o =>
            let f := o.getD { width := widthOr0 part.width }
            { f with parts := f.parts ++ [q], count := f.count + q.count })
          fd)
      []
    ((sortKeys (filedata.map Prod.fst)).filterMap
      (fun w => alookup w filedata)).mapM combine_parts

/-! ### Spec-side definition for claim C7

The specification describes `extract_quantity` as summing *every*
`(<digits>)` group; the following definitions follow the spec's words
(unbounded digit runs) so that the code's regex can be compared against
them. -/

/-- Modelled from the spec: a `(<digits>)` group with an *unbounded* digit
run, as the spec's description of `extract_quantity` reads. -/
def specParenGroup (rest : Str) : Option (Nat × Nat) :=
  let ds := rest.takeWhile Char.isDigit
  if 1 ≤ ds.length ∧ (rest.drop ds.length).head? = some ')' then
    some (digitsVal ds, ds.length + 1)
  else none

/-- Modelled from the spec: all `(<digits>)` groups in the token, digit
runs of any length. -/
def specGroups : Str → List Nat
  | [] => []
  | c :: rest =>
    if c = '(' then
      match specParenGroup rest with
      | some (v, _) => v :: specGroups rest
      | none => specGroups rest
    else specGroups rest

/-- Modelled from the spec: `extract_quantity` as the spec words it — the
sum of the integers in all `(<digits>)` groups, `1` when there is none. -/
def spec_extract_quantity (t : Str) : Int :=
  match specGroups t with
  | [] => 1
  | l => (l.map (fun n => (n : Int))).sum

/-- Whether the token contains a parenthesized digit group of four or more
digits (a group the code's `\((\d{1,3})\)` regex cannot match). -/
def hasLongGroup : Str → Bool
  | [] => false
  | c :: rest =>
    if c = '(' ∧ 4 ≤ (rest.takeWhile Char.isDigit).length ∧
        (rest.drop (rest.takeWhile Char.isDigit).length).head? = some ')' then true
    else hasLongGroup rest

/-! ### The algebraic laws of a tree level

`LevelLaws` collects the properties of one tree level needed to reason
about `combine_parts`; they are proved for the bottom level and shown to be
preserved by `liftOps`, which amounts to an induction over the five levels
of the part tree. -/

structure LevelLaws {β π : Type} (L : LevelOps β π) : Prop where
  wf_empty : L.WF L.empty
  wf_insert : ∀ t p c, L.WF t → L.WF (L.insert t p c)
  lookup_empty_getD : ∀ p, (L.lookup L.empty p).getD 0 = 0
  lookup_empty_cases : (∀ p, L.lookup L.empty p = none) ∨ (∀ p q : π, p = q)
  lookup_insert_self : ∀ t p c,
    L.lookup (L.insert t p c) p = some ((L.lookup t p).getD 0 + c)
  lookup_insert_ne : ∀ t p p' c, p' ≠ p →
    L.lookup (L.insert t p c) p' = L.lookup t p'
  emit_mem : ∀ t p c, L.WF t → ((p, c) ∈ L.emit t ↔ L.lookup t p = some c)
  emit_fst_nodup : ∀ t, L.WF t → ((L.emit t).map Prod.fst).Nodup
  emit_insert_ne : ∀ t p c, L.emit (L.insert t p c) ≠ []
  merge_single : ∀ t p c, L.WF t →
    L.merge t (L.insert L.empty p c) = L.insert t p c
  rebuild : ∀ t, L.WF t →
    (L.emit t).foldl (fun a e => L.insert a e.1 e.2) L.empty = t

/-- First-occurrence deduplication: the key order of a Python dict built by
repeated insertion. -/
def firstDedup {α : Type} [DecidableEq α] : List α → List α
  | [] => []
  | x :: t => x :: (firstDedup t).filter (fun y => y ≠ x)

/-- Whether an optional string field is a whitespace-invariant string
(re-running `__init__` leaves it unchanged). -/
def optStripInv (o : Option Str) : Bool :=
  match o with
  | some s => pyStrip s = s
  | none => false

/-- A restricted class of atomic parts with annotation-free locations:
exactly one `:` in the location, no `&`, not multi-room, no `(`,
whitespace-trimmed, with present, trimmed string fields, a `type` the
`value_map` leaves alone, and a positive count.  Such a part's key path is
sane (`sane_key_of_sane_part`); the quantity-annotated atomic parts that
`split_parts` also emits are covered by the weaker `wf_part` instead. -/
def sane_part (p : MozaikPart) : Bool :=
  decide ((pySplit p.no ':').length = 2) &&
  !(p.no.contains '&') && !(has_multi_room p.no) &&
  !(p.no.contains '(') &&
  decide (pyStrip p.no = p.no) &&
  optStripInv p.length && optStripInv p.extra_data && optStripInv p.type &&
  decide (p.type ≠ some (("{Drawer Front Size}").toList)) &&
  decide (1 ≤ p.count)

/-- The key path of a sane atomic part: room, trimmed cab, length, note,
type (parser.py lines 1103-1104). -/
def part_keypath (p : MozaikPart) : Path4 :=
  ((pySplit p.no ':').headD [],
    trim_cab_count ((pySplit p.no ':').getD 1 []),
    p.length, p.extra_data, p.type, ())

/-- The location `combine_parts` writes for a leaf:
`"<room>:<cab>"`, with `"(<count>)"` appended when the count exceeds 1. -/
def combined_location (r c : Str) (n : Int) : Str :=
  r ++ ':' :: c ++ (if n > 1 then '(' :: intToStr n ++ [')'] else [])

/-- The part `combine_parts` emits for a leaf with key path `k` and
accumulated count `n` (for a tree whose keys came from sane parts). -/
def combined_part (k : Path4) (n : Int) : MozaikPart :=
  { count := n
    width := none
    length := some (orEmpty k.2.2.1)
    type := some (orEmpty k.2.2.2.2.1)
    no := combined_location k.1 k.2.1 n
    extra_data := some (orEmpty k.2.2.2.1) }

/-- The count accumulated for key path `k` over a list of parts. -/
def keypath_count (parts : List MozaikPart) (k : Path4) : Int :=
  ((parts.filter (fun p => part_keypath p = k)).map (fun p => p.count)).sum

/-- The canonical multiset `combine_parts` must produce: one part per
distinct key path, carrying the accumulated count. -/
def combined_parts_spec (parts : List MozaikPart) : List MozaikPart :=
  (firstDedup (parts.map part_keypath)).map
    (fun k => combined_part k (keypath_count parts k))

/-- An "atomic" part: `split_parts` returns it unchanged and its location
splits at `:` into exactly two pieces, so `MozaikPart.tree` inserts exactly
one leaf for it.  Weaker than `sane_part`: the parts `combine_parts` emits
(whose locations may carry a `(<count>)` annotation) are still atomic. -/
def atomic_part (p : MozaikPart) : Bool :=
  !(has_multi p.no) && decide ((pySplit p.no ':').length = 2)

/-- The invariants of a tree key path: its room and cab pieces are free of
`:` and `(`, the reassembled location `room:cab` is neither multi-cab nor
multi-room and is whitespace-trimmed, and the length/note/type components
are present, trimmed strings with a `type` the `value_map` leaves alone.
Because the cab piece of a key is `trim_cab_count(cab)`, the key of a
quantity-annotated location such as `R1:7(2)` is `(R1, 7, ...)` and is
sane. -/
def sane_key (k : Path4) : Bool :=
  !(has_multi (k.1 ++ ':' :: k.2.1)) &&
  decide (pyStrip (k.1 ++ ':' :: k.2.1) = k.1 ++ ':' :: k.2.1) &&
  !(k.1.contains ':') && !(k.2.1.contains ':') &&
  !(k.1.contains '(') && !(k.2.1.contains '(') &&
  optStripInv k.2.2.1 && optStripInv k.2.2.2.1 && optStripInv k.2.2.2.2.1 &&
  decide (k.2.2.2.2.1 ≠ some (("{Drawer Front Size}").toList))

/-- The tree built by inserting one leaf per part, in part order: the value
of `MozaikFile.tree` on a list of atomic parts. -/
def treeOf (parts : List MozaikPart) : T4 :=
  parts.foldl (fun t p => Ops4.insert t (part_keypath p) p.count) Ops4.empty

/-- A well-formed atomic part: `split_parts` returns it unchanged, its
derived tree key is sane, and its count is positive.  This is the shape of
the parts a `MozaikFile` receives from `split_parts` on well-formed master
rows — including quantity-annotated locations such as `R1:7(2)`, whose key
cab is the trimmed `7` — and of the parts `combine_parts` itself emits
while the counts stay within the three-digit annotation range. -/
def wf_part (p : MozaikPart) : Bool :=
  atomic_part p && sane_key (part_keypath p) && decide (1 ≤ p.count)

/-- The parts list `combine_parts` produces from the tree of `parts`: one
combined part per emitted leaf, in tree walk order. -/
def combinedOf (parts : List MozaikPart) : List MozaikPart :=
  (Ops4.emit (treeOf parts)).map (fun e => combined_part e.1 e.2)

/-- The grouping fold of `into_width_files` (parser.py lines 552-568): an
insertion-ordered dict from width to the accumulating `MozaikFile`. -/
def groupFold (parts : List MozaikPart) : List (Option Str × MozaikFile) :=
  parts.foldl
    (fun fd part =>
      let q := wpartOf part
      updateA part.width
        (fun o =>
          let f := o.getD { width := widthOr0 part.width }
          { f with parts := f.parts ++ [q], count := f.count + q.count })
        fd)
    []

/-- Modelled from the spec's words for claim C5: the `MozaikFile` of one
width group — the parts of that width copied without the width field, with
the group's accumulated count. -/
def spec_group_file (parts : List MozaikPart) (w : Option Str) : MozaikFile :=
  { width := widthOr0 w
    count := ((parts.filter (fun p => p.width = w)).map
      (fun p => (wpartOf p).count)).sum
    parts := (parts.filter (fun p => p.width = w)).map wpartOf }

/-- Modelled from the spec's words for claim C5: one `WidthFile` per
distinct width value, in ascending string-sorted width order, each group's
parts copied without the width field and already combined; the empty
sequence when `parts` is empty. -/
def into_width_files_spec (mf : MozaikMasterFile) : Option (List MozaikFile) :=
  if mf.parts = [] then some []
  else (sortKeys (firstDedup (mf.parts.map (fun p => p.width)))).mapM
    (fun w => combine_parts (spec_group_file mf.parts w))

/-! ## Lemmas about the Python string primitives -/

theorem contains_eq_mem (s : Str) (c : Char) : s.contains c = decide (c ∈ s) := by
  induction s with
  | nil => rfl
  | cons a t ih =>
    simp only [List.contains_cons, ih, List.mem_cons]
    rcases Decidable.em (c = a) with h | h
    · simp [h]
    · have : (a == c) = false := by
        simp [BEq.beq]
        exact fun hh => h hh.symm
      simp [this, h]

theorem contains_false_of_not_mem {s : Str} {c : Char} (h : c ∉ s) :
    s.contains c = false := by
  rw [contains_eq_mem]
  simp [h]

theorem contains_true_of_mem {s : Str} {c : Char} (h : c ∈ s) :
    s.contains c = true := by
  rw [contains_eq_mem]
  simp [h]

theorem pySplit_ne_nil (s : Str) (sep : Char) : pySplit s sep ≠ [] := by
  induction s with
  | nil => simp [pySplit]
  | cons c rest ih =>
    simp only [pySplit]
    split
    · simp
    · rcases h : pySplit rest sep with _ | ⟨t, ts⟩
      · exact absurd h ih
      · simp [h]

theorem mem_pySplit_not_sep {s : Str} {sep : Char} {t : Str}
    (h : t ∈ pySplit s sep) : sep ∉ t := by
  induction s generalizing t with
  | nil =>
    simp only [pySplit, List.mem_singleton] at h
    subst h; simp
  | cons c rest ih =>
    simp only [pySplit] at h
    split at h
    · rcases List.mem_cons.mp h with h1 | h1
      · subst h1; simp
      · exact ih h1
    · rename_i hc
      rcases heq : pySplit rest sep with _ | ⟨u, us⟩
      · exact absurd heq (pySplit_ne_nil rest sep)
      · rw [heq] at h
        rcases List.mem_cons.mp h with h1 | h1
        · subst h1
          intro hmem
          rcases List.mem_cons.mp hmem with h2 | h2
          · exact hc h2.symm
          · exact ih (heq ▸ List.mem_cons_self u us) h2
        · exact ih (heq ▸ List.mem_cons.mpr (Or.inr h1))

theorem pySplit_of_not_mem {s : Str} {sep : Char} (h : sep ∉ s) :
    pySplit s sep = [s] := by
  induction s with
  | nil => rfl
  | cons c rest ih =>
    have hc : ¬(c = sep) := fun hh => h (hh ▸ List.mem_cons_self c rest)
    have hr : sep ∉ rest := fun hh => h (List.mem_cons.mpr (Or.inr hh))
    simp only [pySplit, if_neg hc, ih hr]

theorem pySplit_length_ge_two {s : Str} {sep : Char} (h : sep ∈ s) :
    2 ≤ (pySplit s sep).length := by
  induction s with
  | nil => simp at h
  | cons c rest ih =>
    simp only [pySplit]
    rcases List.mem_cons.mp h with h1 | h1
    · rw [if_pos h1.symm]
      have := pySplit_ne_nil rest sep
      have hlen : 1 ≤ (pySplit rest sep).length := by
        cases hh : pySplit rest sep with
        | nil => exact absurd hh this
        | cons a t => simp
      simp only [List.length_cons]
      omega
    · split
      · have := pySplit_ne_nil rest sep
        have hlen : 1 ≤ (pySplit rest sep).length := by
          cases hh : pySplit rest sep with
          | nil => exact absurd hh this
          | cons a t => simp
        simp only [List.length_cons]
        omega
      · rcases heq : pySplit rest sep with _ | ⟨t, ts⟩
        · exact absurd heq (pySplit_ne_nil rest sep)
        · have := ih h1
          rw [heq] at this
          simp only [List.length_cons] at this ⊢
          omega

theorem pySplit_append_not_sep {xs : Str} {sep : Char} (ys : Str)
    (h : sep ∉ xs) :
    pySplit (xs ++ ys) sep =
      ((xs ++ (pySplit ys sep).headD []) :: (pySplit ys sep).tail) := by
  induction xs with
  | nil =>
    simp only [List.nil_append]
    rcases heq : pySplit ys sep with _ | ⟨t, ts⟩
    · exact absurd heq (pySplit_ne_nil ys sep)
    · simp
  | cons c rest ih =>
    have hc : ¬(c = sep) := fun hh => h (hh ▸ List.mem_cons_self c rest)
    have hr : sep ∉ rest := fun hh => h (List.mem_cons.mpr (Or.inr hh))
    simp only [List.cons_append, pySplit, if_neg hc]
    rw [show rest.append ys = rest ++ ys from rfl, ih hr]

theorem cabMultiCounts_append_no_paren {xs : Str} (ys : Str)
    (h : '(' ∉ xs) : cabMultiCounts (xs ++ ys) = cabMultiCounts ys := by
  induction xs with
  | nil => rfl
  | cons c rest ih =>
    have hc : ¬(c = '(') := fun hh => h (hh ▸ List.mem_cons_self c rest)
    have hr : '(' ∉ rest := fun hh => h (List.mem_cons.mpr (Or.inr hh))
    simp only [List.cons_append, cabMultiCounts, if_neg hc]
    exact ih hr

theorem get_cab_count_append_no_paren {xs : Str} (ys : Str)
    (h : '(' ∉ xs) : get_cab_count (xs ++ ys) = get_cab_count ys := by
  simp only [get_cab_count, cabMultiCounts_append_no_paren ys h]

theorem dropWhile_ne_of_mem {s : Str} {c : Char} (h : c ∈ s) :
    s.dropWhile (fun x => x ≠ c) = c :: (s.dropWhile (fun x => x ≠ c)).drop 1 := by
  induction s with
  | nil => simp at h
  | cons a t ih =>
    by_cases ha : a = c
    · subst ha
      simp [List.dropWhile_cons]
    · have ht : c ∈ t := by
        rcases List.mem_cons.mp h with h1 | h1
        · exact absurd h1.symm ha
        · exact h1
      simp only [List.dropWhile_cons]
      rw [if_pos (by simp [ha])]
      exact ih ht

/-- Decomposition of a string at its first occurrence of `c`
(Python `partition`). -/
theorem partition_decomp {s : Str} {c : Char} (h : c ∈ s) :
    s = s.takeWhile (fun x => x ≠ c) ++
      c :: (s.dropWhile (fun x => x ≠ c)).drop 1 := by
  conv_lhs => rw [← List.takeWhile_append_dropWhile (p := fun x => x ≠ c) (l := s)]
  rw [← dropWhile_ne_of_mem h]

theorem not_mem_takeWhile_ne (s : Str) (c : Char) :
    c ∉ s.takeWhile (fun x => x ≠ c) := by
  intro hmem
  have := List.mem_takeWhile_imp hmem
  simp at this

/-! ## Claim C7: `extract_quantity` -/

theorem parenGroup_def (rest : Str) :
    parenGroup rest =
      if 1 ≤ (rest.takeWhile Char.isDigit).length ∧
          (rest.takeWhile Char.isDigit).length ≤ 3 ∧
          (rest.drop (rest.takeWhile Char.isDigit).length).head? = some ')' then
        some (digitsVal (rest.takeWhile Char.isDigit),
          (rest.takeWhile Char.isDigit).length + 1)
      else none := rfl

theorem specParenGroup_def (rest : Str) :
    specParenGroup rest =
      if 1 ≤ (rest.takeWhile Char.isDigit).length ∧
          (rest.drop (rest.takeWhile Char.isDigit).length).head? = some ')' then
        some (digitsVal (rest.takeWhile Char.isDigit),
          (rest.takeWhile Char.isDigit).length + 1)
      else none := rfl

/-- On tokens without a long (≥ 4 digits) parenthesized group, the code's
bounded scanner and the spec's unbounded scanner find the same groups. -/
theorem cabMultiCounts_eq_specGroups :
    ∀ {t : Str}, hasLongGroup t = false → cabMultiCounts t = specGroups t := by
  intro t
  induction t with
  | nil => intro _; rfl
  | cons c rest ih =>
    intro h
    rw [hasLongGroup] at h
    split at h
    · exact absurd h (by simp)
    · rename_i hnotlong
      by_cases hc : c = '('
      · subst hc
        by_cases hge : 1 ≤ (rest.takeWhile Char.isDigit).length
        · by_cases hhd :
              (rest.drop (rest.takeWhile Char.isDigit).length).head? = some ')'
          · have hlen : (rest.takeWhile Char.isDigit).length ≤ 3 := by
              by_contra hcon
              exact hnotlong ⟨rfl, by omega, hhd⟩
            have hpg : parenGroup rest = some (digitsVal (rest.takeWhile Char.isDigit),
                (rest.takeWhile Char.isDigit).length + 1) := by
              rw [parenGroup_def, if_pos ⟨hge, hlen, hhd⟩]
            have hsg : specParenGroup rest = some (digitsVal (rest.takeWhile Char.isDigit),
                (rest.takeWhile Char.isDigit).length + 1) := by
              rw [specParenGroup_def, if_pos ⟨hge, hhd⟩]
            simp [cabMultiCounts, specGroups, hpg, hsg, ih h]
          · have hpg : parenGroup rest = none := by
              rw [parenGroup_def, if_neg (fun hcon => hhd hcon.2.2)]
            have hsg : specParenGroup rest = none := by
              rw [specParenGroup_def, if_neg (fun hcon => hhd hcon.2)]
            simp [cabMultiCounts, specGroups, hpg, hsg, ih h]
        · have hpg : parenGroup rest = none := by
            rw [parenGroup_def, if_neg (fun hcon => hge hcon.1)]
          have hsg : specParenGroup rest = none := by
            rw [specParenGroup_def, if_neg (fun hcon => hge hcon.1)]
          simp [cabMultiCounts, specGroups, hpg, hsg, ih h]
      · simp [cabMultiCounts, specGroups, if_neg hc, ih h]

/-- C7 (amended): on every token without a parenthesized digit group of four
or more digits, `get_cab_count` returns the sum of the integers found in all
`(<digits>)` groups and `1` when there is none.  (The code's regex
`\((\d{1,3})\)` only matches one- to three-digit groups.) -/
theorem claim_C7 (t : Str) (h : hasLongGroup t = false) :
    get_cab_count t = spec_extract_quantity t := by
  rw [get_cab_count, spec_extract_quantity, cabMultiCounts_eq_specGroups h]

/-- Witness for C7: a token with two short groups. -/
theorem claim_C7_witness :
    hasLongGroup (("7(2)x(3)").toList) = false ∧
      get_cab_count (("7(2)x(3)").toList) = 5 ∧
      spec_extract_quantity (("7(2)x(3)").toList) = 5 := by
  refine ⟨by decide, ?_, by decide⟩
  rw [claim_C7 (("7(2)x(3)").toList) (by decide)]
  decide

/-- Counterexample for C7 as stated: on `"(1234)"` the code returns `1`
while the sum over all `(<digits>)` groups (the spec's reading, any digit
string) is `1234`. -/
theorem claim_C7_cex :
    get_cab_count (("(1234)").toList) ≠ spec_extract_quantity (("(1234)").toList) := by
  decide

/-! ## Claims C1, C4, C9: construction -/

theorem mkPartCore_no (d : PartData) (n : Int) :
    (mkPartCore d n).no = pyStrip (d.no.getD []) := rfl

theorem mkPartCore_count (d : PartData) (n : Int) :
    (mkPartCore d n).count =
      if has_multi (pyStrip (d.no.getD [])) then
        fix_cab_count_value (pyStrip (d.no.getD []))
      else n := rfl

theorem fix_cab_count_value_def (no : Str) :
    fix_cab_count_value no =
      ((pySplit no ' ').map
        (fun room => ((pySplit room '&').map get_cab_count).sum)).sum := rfl

/-- Helper: the count of a constructed part with multiplicity is the
`fix_cab_count` value of its (stripped) location. -/
theorem initPart_count_fix {d : PartData} {p : MozaikPart}
    (h : initPart d = some p) (hm : has_multi p.no = true) :
    p.count = fix_cab_count_value p.no := by
  rw [initPart] at h
  cases hc : coerceCount d.count with
  | none => rw [hc] at h; simp at h
  | some n =>
    rw [hc] at h
    simp only [Option.map_some'] at h
    have hp : p = mkPartCore d n := by
      cases h; rfl
    subst hp
    rw [mkPartCore_no] at hm
    rw [mkPartCore_count, if_pos hm, mkPartCore_no]

/-- Helper: the count of a constructed part without multiplicity is the
coerced supplied count. -/
theorem initPart_count_keep {d : PartData} {p : MozaikPart}
    (h : initPart d = some p) (hm : has_multi p.no = false) :
    coerceCount d.count = some p.count := by
  rw [initPart] at h
  cases hc : coerceCount d.count with
  | none => rw [hc] at h; simp at h
  | some n =>
    rw [hc] at h
    simp only [Option.map_some'] at h
    have hp : p = mkPartCore d n := by
      cases h; rfl
    subst hp
    rw [mkPartCore_no] at hm
    rw [mkPartCore_count, hm]
    simp

/-- C1: after a successful construction, a record whose location has
multiplicity has its count recomputed as the sum of `get_cab_count` over
every sub-token of the location split first on spaces and then on `&`,
regardless of the supplied count; otherwise the coerced supplied count is
kept. -/
theorem claim_C1 (d : PartData) (p : MozaikPart) (h : initPart d = some p) :
    (has_multi p.no = true →
      p.count = ((pySplit p.no ' ').map
        (fun room => ((pySplit room '&').map get_cab_count).sum)).sum) ∧
    (has_multi p.no = false → coerceCount d.count = some p.count) := by
  constructor
  · intro hm
    rw [initPart_count_fix h hm, fix_cab_count_value_def]
  · intro hm
    exact initPart_count_keep h hm

/-- Witness for C1: the supplied count 2 on `"R1:1 R2:2&3"` is overwritten
with 3; and a single-cab location keeps its supplied count 5. -/
theorem claim_C1_witness :
    (initPart { count := .int 2, no := some (("R1:1 R2:2&3").toList) } =
      some (mkPartCore { count := .int 2, no := some (("R1:1 R2:2&3").toList) } 2)) ∧
    (mkPartCore { count := .int 2, no := some (("R1:1 R2:2&3").toList) } 2).count = 3 ∧
    (mkPartCore { count := .int 5, no := some (("R1:9").toList) } 5).count = 5 := by
  refine ⟨by decide, ?_, ?_⟩
  · have h := (claim_C1 { count := .int 2, no := some (("R1:1 R2:2&3").toList) }
      (mkPartCore { count := .int 2, no := some (("R1:1 R2:2&3").toList) } 2)
      (by decide)).1 (by decide)
    rw [h]
    decide
  · have h := (claim_C1 { count := .int 5, no := some (("R1:9").toList) }
      (mkPartCore { count := .int 5, no := some (("R1:9").toList) } 5)
      (by decide)).2 (by decide)
    simp only [coerceCount] at h
    cases h
    rfl

/-- C4: a record whose location has no `&` and is not multi-room is left
alone: construction keeps the coerced supplied count (even when it is
greater than 1) and `split_parts` returns `[self]` with the receiver
untouched. -/
theorem claim_C4 (d : PartData) (p : MozaikPart) (h : initPart d = some p)
    (hamp : '&' ∉ p.no) (hroom : has_multi_room p.no = false) :
    split_parts p = ([p], p) ∧ coerceCount d.count = some p.count := by
  have hmulti : has_multi p.no = false := by
    rw [has_multi]
    split
    · rfl
    · rw [has_multi_cab, contains_false_of_not_mem hamp, hroom]
      rfl
  constructor
  · rw [split_parts, hmulti]
    rfl
  · exact initPart_count_keep h hmulti

/-- Witness for C4: a single location with supplied count 99 is returned
unchanged by `split_parts`. -/
theorem claim_C4_witness :
    split_parts (mkPartCore { count := .int 99, no := some (("R1:1").toList) } 99) =
      ([mkPartCore { count := .int 99, no := some (("R1:1").toList) } 99],
        mkPartCore { count := .int 99, no := some (("R1:1").toList) } 99) ∧
    (mkPartCore { count := .int 99, no := some (("R1:1").toList) } 99).count = 99 := by
  refine ⟨(claim_C4 { count := .int 99, no := some (("R1:1").toList) }
    (mkPartCore { count := .int 99, no := some (("R1:1").toList) } 99)
    (by decide) (by decide) (by decide)).1, by decide⟩

/-- C9: construction fails exactly when the supplied count cannot be
coerced to an integer (string or integer values are accepted); a falsy
location never fails — the location field is simply set to the empty
string. -/
theorem claim_C9 (d : PartData) :
    ((initPart d).isSome ↔ (coerceCount d.count).isSome) ∧
    ((d.no = none ∨ d.no = some []) →
      ∀ p, initPart d = some p → p.no = []) := by
  constructor
  · cases h : coerceCount d.count <;> simp [initPart, h]
  · intro hno p hp
    rw [initPart] at hp
    cases hc : coerceCount d.count with
    | none => rw [hc] at hp; simp at hp
    | some n =>
      rw [hc] at hp
      simp only [Option.map_some'] at hp
      cases hp
      show pyStrip (d.no.getD []) = []
      rcases hno with h | h <;> rw [h] <;> rfl

/-! ## Claim C10: the receiver is mutated by `split_parts` -/

theorem split_room_cabs_aux_single (fuel : Nat) (rp : MozaikPart)
    (h : has_multi_room rp.no = false) :
    split_room_cabs_aux fuel [rp] =
      ((processRoompart rp).1, [(processRoompart rp).2]) := by
  unfold split_room_cabs_aux
  simp [split_room_cabs_step, h]

theorem processRoompart_no_colon_multicab (rp : MozaikPart)
    (hcol : ':' ∉ rp.no) (hamp : '&' ∈ rp.no) :
    processRoompart rp =
      ((pySplit rp.no '&').map (fun cab =>
        { copyPart { rp with no := (("R1:").toList) ++ rp.no } with
          no := (("R1").toList) ++ ':' :: cab,
          count := get_cab_count cab }),
       { rp with no := (("R1:").toList) ++ rp.no }) := by
  have hlen : ¬((pySplit rp.no '&').length = 1) := by
    have := pySplit_length_ge_two hamp
    omega
  have h1 : rp.no.contains ':' = false := contains_false_of_not_mem hcol
  have h2 : ((("R1:").toList ++ rp.no).takeWhile (fun x => x ≠ ':')) =
      ("R1").toList := rfl
  have h3 : (((("R1:").toList ++ rp.no).dropWhile (fun x => x ≠ ':')).drop 1) =
      rp.no := rfl
  simp only [processRoompart, h1, Bool.false_eq_true, if_false, h2, h3,
    if_neg hlen]

/-- C10: `split_parts` is not free of side effects on the receiver: for a
location with `&`, no `:` and no multi-room marker, the receiver's own
location is rewritten in place to `"R1:" + old`, while the returned records
are fresh per-cab copies none of which is the receiver. -/
theorem claim_C10 (p : MozaikPart) (hamp : '&' ∈ p.no) (hcol : ':' ∉ p.no)
    (hroom : has_multi_room p.no = false) :
    (split_parts p).2 = { p with no := (("R1:").toList) ++ p.no } ∧
    ∀ q ∈ (split_parts p).1, q ≠ (split_parts p).2 := by
  have hne : p.no ≠ [] := by
    intro h
    rw [h] at hamp
    simp at hamp
  have hmulti : has_multi p.no = true := by
    rw [has_multi, if_neg hne, has_multi_cab, contains_true_of_mem hamp]
    rfl
  have hsr : split_rooms p = [p] := by
    rw [split_rooms, hroom]
    rfl
  have hpr := processRoompart_no_colon_multicab p hcol hamp
  have hsp : split_parts p =
      ((processRoompart p).1, (processRoompart p).2) := by
    rw [split_parts, hmulti, hsr, split_room_cabs_aux_single 2 p hroom]
    simp [hroom]
  rw [hsp, hpr]
  constructor
  · rfl
  · intro q hq
    simp only [List.mem_map] at hq
    rcases hq with ⟨cab, hcabmem, hqeq⟩
    intro hcontra
    have hnoeq : (("R1").toList) ++ ':' :: cab = (("R1:").toList) ++ p.no := by
      have := congrArg MozaikPart.no hcontra
      rw [← hqeq] at this
      exact this
    have hcabeq : cab = p.no := by
      have := hnoeq
      simp only [List.append_eq, List.cons_append] at this
      exact List.cons_injective (List.cons_injective
        (List.cons_injective this))
  -- unreachable fallback below; replaced if needed
    exact (mem_pySplit_not_sep hcabmem) (hcabeq ▸ hamp)

/-- Witness for C10: splitting `"3&5&6"` rewrites the receiver's location
to `"R1:3&5&6"` and the receiver is not among the returned parts. -/
theorem claim_C10_witness :
    (split_parts { count := 3, no := (("3&5&6").toList) }).2.no =
      (("R1:3&5&6").toList) ∧
    (split_parts { count := 3, no := (("3&5&6").toList) }).2 ∉
      (split_parts { count := 3, no := (("3&5&6").toList) }).1 := by
  have h := claim_C10 { count := 3, no := (("3&5&6").toList) }
    (by decide) (by decide) (by decide)
  exact ⟨by rw [h.1]; rfl, fun hmem => (h.2 _ hmem) rfl⟩

/-! ## Claim C2: split preserves the total count -/

theorem mem_of_contains {s : Str} {c : Char} (h : s.contains c = true) :
    c ∈ s := by
  rw [contains_eq_mem] at h
  exact of_decide_eq_true h

theorem has_multi_room_no_space {s : Str} (h : ' ' ∉ s) :
    has_multi_room s = false := by
  rw [has_multi_room, contains_false_of_not_mem h]
  simp

theorem mem_space_of_has_multi_room {s : Str} (h : has_multi_room s = true) :
    ' ' ∈ s := by
  rw [has_multi_room] at h
  exact mem_of_contains (Bool.and_eq_true_iff.mp h).2

/-- `processRoompart` for a location with a `:` and several cabs after
it. -/
theorem processRoompart_colon_multicab (rp : MozaikPart) (hcol : ':' ∈ rp.no)
    (hamp : '&' ∈ ((rp.no.dropWhile (fun x => x ≠ ':')).drop 1)) :
    processRoompart rp =
      ((pySplit ((rp.no.dropWhile (fun x => x ≠ ':')).drop 1) '&').map (fun cab =>
        { copyPart rp with
          no := (rp.no.takeWhile (fun x => x ≠ ':')) ++ ':' :: cab,
          count := get_cab_count cab }), rp) := by
  have h1 : rp.no.contains ':' = true := contains_true_of_mem hcol
  have hlen : ¬((pySplit ((rp.no.dropWhile (fun x => x ≠ ':')).drop 1) '&').length = 1) := by
    have := pySplit_length_ge_two hamp
    omega
  simp only [processRoompart, h1, if_true, if_neg hlen]

/-- `processRoompart` for a location with a `:` and a single cab after
it. -/
theorem processRoompart_colon_singlecab (rp : MozaikPart) (hcol : ':' ∈ rp.no)
    (hamp : '&' ∉ ((rp.no.dropWhile (fun x => x ≠ ':')).drop 1)) :
    processRoompart rp =
      ([{ rp with count := get_cab_count rp.no }],
        { rp with count := get_cab_count rp.no }) := by
  have h1 : rp.no.contains ':' = true := contains_true_of_mem hcol
  have hlen : (pySplit ((rp.no.dropWhile (fun x => x ≠ ':')).drop 1) '&').length = 1 := by
    rw [pySplit_of_not_mem hamp]
    rfl
  simp only [processRoompart, h1, if_true, if_pos hlen]

/-- `processRoompart` for a location without `:` or `&`. -/
theorem processRoompart_no_colon_singlecab (rp : MozaikPart)
    (hcol : ':' ∉ rp.no) (hamp : '&' ∉ rp.no) :
    processRoompart rp =
      ([{ rp with
          no := (("R1:").toList) ++ rp.no
          count := get_cab_count ((("R1:").toList) ++ rp.no) }],
        { rp with
          no := (("R1:").toList) ++ rp.no
          count := get_cab_count ((("R1:").toList) ++ rp.no) }) := by
  have h1 : rp.no.contains ':' = false := contains_false_of_not_mem hcol
  have h3 : (((("R1:").toList ++ rp.no).dropWhile (fun x => x ≠ ':')).drop 1) =
      rp.no := rfl
  have hlen : (pySplit ((((("R1:").toList ++ rp.no).dropWhile
      (fun x => x ≠ ':'))).drop 1) '&').length = 1 := by
    rw [h3, pySplit_of_not_mem hamp]
    rfl
  simp only [processRoompart, h1, Bool.false_eq_true, if_false, if_pos hlen]

/-- `split_room_cabs` on roomparts none of which is multi-room (the only
situation `split_parts` can produce): no deferral occurs and the result is
the concatenation of the per-roompart cab parts. -/
theorem filterMap_none_eq_nil {α β : Type} (l : List α) :
    l.filterMap (fun _ => (none : Option β)) = [] := by
  induction l with
  | nil => rfl
  | cons x t ih => simp [List.filterMap_cons, ih]

theorem split_room_cabs_step_all (rps : List MozaikPart)
    (h : ∀ rp ∈ rps, has_multi_room rp.no = false) :
    split_room_cabs_step rps =
      ((rps.map (fun rp => (processRoompart rp).1)).flatten, [],
        rps.map (fun rp => (processRoompart rp).2)) := by
  induction rps with
  | nil => rfl
  | cons rp rest ih =>
    have hrp := h rp (List.mem_cons_self rp rest)
    have hrest := ih (fun q hq => h q (List.mem_cons.mpr (Or.inr hq)))
    simp [split_room_cabs_step, hrp, hrest]

theorem split_room_cabs_aux_all (fuel : Nat) (rps : List MozaikPart)
    (h : ∀ rp ∈ rps, has_multi_room rp.no = false) :
    (split_room_cabs_aux fuel rps).1 =
      (rps.map (fun rp => (processRoompart rp).1)).flatten := by
  unfold split_room_cabs_aux
  rw [split_room_cabs_step_all rps h]
  simp

/-- `split_rooms` in the multi-room case: one fresh copy per space-token. -/
theorem split_rooms_multi (p : MozaikPart) (h : has_multi_room p.no = true) :
    split_rooms p = (pySplit p.no ' ').map (fun rn =>
      { copyPart p with
        no := rn
        count := (pyCountChar rn '&' : Int) + get_cab_count rn }) := by
  have hsp : ' ' ∈ p.no := mem_space_of_has_multi_room h
  have hlen : ¬((pySplit p.no ' ').length = 1) := by
    have := pySplit_length_ge_two hsp
    omega
  rw [split_rooms, h]
  simp only [Bool.not_true, Bool.false_eq_true, if_false, if_neg hlen]

theorem sum_map_flatten {α : Type} (l : List (List α)) (g : α → Int) :
    ((l.flatten).map g).sum = (l.map (fun x => (x.map g).sum)).sum := by
  induction l with
  | nil => rfl
  | cons x t ih =>
    simp only [List.flatten_cons, List.map_append, List.sum_append, ih,
      List.map_cons, List.sum_cons]

/-- The per-roompart count contribution of `split_room_cabs` equals the
per-token sum of `get_cab_count` over the `&`-pieces of the token, for a
space-free token whose pre-`:` portion (if both `&` and `:` occur) is free
of `&` and `(`. -/
theorem processRoompart_count_sum (rp : MozaikPart)
    (hpre : '&' ∈ rp.no → ':' ∈ rp.no →
      ('&' ∉ rp.no.takeWhile (fun x => x ≠ ':') ∧
       '(' ∉ rp.no.takeWhile (fun x => x ≠ ':'))) :
    ((processRoompart rp).1.map (fun q => q.count)).sum =
      ((pySplit rp.no '&').map get_cab_count).sum := by
  have hR1 : '(' ∉ (("R1:").toList : Str) := by decide
  by_cases hcol : ':' ∈ rp.no
  · have hdecomp := partition_decomp hcol
    by_cases hamp : '&' ∈ rp.no
    · obtain ⟨hpre1, hpre2⟩ := hpre hamp hcol
      have hampPost : '&' ∈ ((rp.no.dropWhile (fun x => x ≠ ':')).drop 1) := by
        rcases (List.mem_append.mp (hdecomp ▸ hamp)) with h1 | h1
        · exact absurd h1 hpre1
        · rcases List.mem_cons.mp h1 with h2 | h2
          · exact absurd h2 (by decide)
          · exact h2
      rw [processRoompart_colon_multicab rp hcol hampPost]
      have hnosepCol : '&' ∉ (rp.no.takeWhile (fun x => x ≠ ':')) ++ [':'] := by
        intro hmem
        rcases List.mem_append.mp hmem with h1 | h1
        · exact hpre1 h1
        · rcases List.mem_singleton.mp h1 with h2
          exact absurd h2 (by decide)
      have hsplit := pySplit_append_not_sep
        (((rp.no.dropWhile (fun x => x ≠ ':')).drop 1)) hnosepCol
      rcases hps : pySplit ((rp.no.dropWhile (fun x => x ≠ ':')).drop 1) '&'
        with _ | ⟨hd, tl⟩
      · exact absurd hps (pySplit_ne_nil _ _)
      · have hnoParen : '(' ∉ (rp.no.takeWhile (fun x => x ≠ ':')) ++ [':'] := by
          intro hmem
          rcases List.mem_append.mp hmem with h1 | h1
          · exact hpre2 h1
          · rcases List.mem_singleton.mp h1 with h2
            exact absurd h2 (by decide)
        have hre : pySplit rp.no '&' =
            (((rp.no.takeWhile (fun x => x ≠ ':')) ++ [':']) ++ hd) :: tl := by
          conv_lhs => rw [hdecomp, List.append_cons]
          rw [hsplit, hps]
          rfl
        rw [hre]
        simp only [List.map_cons, List.map_map, List.sum_cons]
        rw [get_cab_count_append_no_paren hd hnoParen]
        rfl
    · have hampPost : '&' ∉ ((rp.no.dropWhile (fun x => x ≠ ':')).drop 1) := by
        intro hmem
        apply hamp
        rw [hdecomp]
        exact List.mem_append.mpr (Or.inr (List.mem_cons.mpr (Or.inr hmem)))
      rw [processRoompart_colon_singlecab rp hcol hampPost,
        pySplit_of_not_mem hamp]
      simp
  · by_cases hamp : '&' ∈ rp.no
    · rw [processRoompart_no_colon_multicab rp hcol hamp]
      simp only [List.map_map]
      rfl
    · rw [processRoompart_no_colon_singlecab rp hcol hamp,
        pySplit_of_not_mem hamp]
      simp only [List.map_cons, List.map_nil, List.sum_cons, List.sum_nil]
      show get_cab_count ((("R1:").toList) ++ rp.no) + 0 = get_cab_count rp.no + 0
      rw [get_cab_count_append_no_paren rp.no hR1]

/-- C2 (amended): `sum(p.count for p in split()) == count` holds after
construction for every location in which (a) every space-token that
contains both `&` and `:` has no `&` or `(` before its first `:`, and
(b) a location with `&` that is not multi-room contains no space. -/
theorem claim_C2 (d : PartData) (p : MozaikPart) (h : initPart d = some p)
    (h1 : has_multi_room p.no = false → '&' ∈ p.no → ' ' ∉ p.no)
    (h2 : ∀ rn ∈ pySplit p.no ' ', '&' ∈ rn → ':' ∈ rn →
      ('&' ∉ rn.takeWhile (fun x => x ≠ ':') ∧
       '(' ∉ rn.takeWhile (fun x => x ≠ ':'))) :
    ((split_parts p).1.map (fun q => q.count)).sum = p.count := by
  by_cases hm : has_multi p.no = true
  · rw [initPart_count_fix h hm, fix_cab_count_value_def]
    by_cases hroom : has_multi_room p.no = true
    · -- several rooms: fresh copies, one per space-token
      have hsplit : (split_parts p).1 =
          (split_room_cabs_aux 2 (split_rooms p)).1 := by
        rw [split_parts, hm, hroom]
        simp
      rw [hsplit, split_rooms_multi p hroom]
      have hnomr : ∀ rp ∈ (pySplit p.no ' ').map (fun rn =>
          ({ copyPart p with
            no := rn
            count := (pyCountChar rn '&' : Int) + get_cab_count rn } : MozaikPart)),
          has_multi_room rp.no = false := by
        intro rp hrp
        rcases List.mem_map.mp hrp with ⟨rn, hrn, hrpeq⟩
        have : rp.no = rn := by rw [← hrpeq]
        rw [this]
        exact has_multi_room_no_space (mem_pySplit_not_sep hrn)
      rw [split_room_cabs_aux_all 2 _ hnomr, sum_map_flatten, List.map_map,
        List.map_map]
      apply congrArg
      apply List.map_congr_left
      intro rn hrn
      have hcount := processRoompart_count_sum
        ({ copyPart p with
          no := rn
          count := (pyCountChar rn '&' : Int) + get_cab_count rn } : MozaikPart)
        (h2 rn hrn)
      exact hcount
    · -- a single room with several cabs
      have hroom' : has_multi_room p.no = false := by
        cases hr : has_multi_room p.no
        · rfl
        · exact absurd hr hroom
      have hamp : '&' ∈ p.no := by
        rw [has_multi] at hm
        split at hm
        · exact absurd hm (by simp)
        · rw [hroom'] at hm
          simp only [Bool.or_false] at hm
          exact mem_of_contains hm
      have hsp : ' ' ∉ p.no := h1 hroom' hamp
      have hsplit : (split_parts p).1 = (processRoompart p).1 := by
        rw [split_parts, hm]
        have hsr : split_rooms p = [p] := by
          rw [split_rooms, hroom']
          rfl
        rw [hsr, split_room_cabs_aux_single 2 p hroom', hroom']
        simp
      rw [hsplit, pySplit_of_not_mem hsp]
      have := processRoompart_count_sum p
        (h2 p.no (by rw [pySplit_of_not_mem hsp]; exact List.mem_singleton.mpr rfl))
      rw [this]
      simp
  · have hm' : has_multi p.no = false := by
      cases hr : has_multi p.no
      · rfl
      · exact absurd hr hm
    rw [split_parts, hm']
    simp

/-- Witness for C2: the four-room mixed-annotation location from the
repository's own test data, deliberately supplied with a wrong count. -/
theorem claim_C2_witness :
    (initPart
        { count := .int 20
          no := some (("R1:7(2)&8(2) R2:3(2)&7(3)&8(5) R3:1 R4:4(5)").toList) } =
      some (mkPartCore
        { count := .int 20
          no := some (("R1:7(2)&8(2) R2:3(2)&7(3)&8(5) R3:1 R4:4(5)").toList) } 20)) ∧
    ((split_parts (mkPartCore
        { count := .int 20
          no := some (("R1:7(2)&8(2) R2:3(2)&7(3)&8(5) R3:1 R4:4(5)").toList) } 20)).1.map
      (fun q => q.count)).sum =
      (mkPartCore
        { count := .int 20
          no := some (("R1:7(2)&8(2) R2:3(2)&7(3)&8(5) R3:1 R4:4(5)").toList) } 20).count ∧
    (mkPartCore
        { count := .int 20
          no := some (("R1:7(2)&8(2) R2:3(2)&7(3)&8(5) R3:1 R4:4(5)").toList) } 20).count = 20 := by
  refine ⟨by decide, ?_, by decide⟩
  exact claim_C2
    { count := .int 20
      no := some (("R1:7(2)&8(2) R2:3(2)&7(3)&8(5) R3:1 R4:4(5)").toList) }
    (mkPartCore
      { count := .int 20
        no := some (("R1:7(2)&8(2) R2:3(2)&7(3)&8(5) R3:1 R4:4(5)").toList) } 20)
    (by decide) (by decide) (by decide)

/-- Counterexample for C2 as stated: on location `"3& 5"` (a space inside a
non-multi-room location) construction fixes the count to 3 but the split
parts sum to 2. -/
theorem claim_C2_cex :
    (initPart { count := .int 3, no := some (("3& 5").toList) } =
      some (mkPartCore { count := .int 3, no := some (("3& 5").toList) } 3)) ∧
    ((split_parts (mkPartCore
        { count := .int 3, no := some (("3& 5").toList) } 3)).1.map
      (fun q => q.count)).sum = 2 ∧
    (mkPartCore { count := .int 3, no := some (("3& 5").toList) } 3).count = 3 := by
  refine ⟨by decide, by decide, by decide⟩

/-! ## Claim C8: the accumulated total count of `parse` -/

theorem parse_foldl_invariant :
    ∀ (rows : List (List Str)) (acc mf : MozaikMasterFile),
      acc.count = (acc.parts.map (fun p => p.count)).sum →
      List.foldlM parseStep acc rows = some mf →
      mf.count = (mf.parts.map (fun p => p.count)).sum := by
  intro rows
  induction rows with
  | nil =>
    intro acc mf hinv h
    simp only [List.foldlM_nil] at h
    cases h
    exact hinv
  | cons row rest ih =>
    intro acc mf hinv h
    simp only [List.foldlM_cons] at h
    cases hrow : parseStep acc row with
    | none =>
      rw [hrow] at h
      exact Option.noConfusion h
    | some acc' =>
      rw [hrow] at h
      have h' : List.foldlM parseStep acc' rest = some mf := h
      apply ih acc' mf _ h'
      rw [parseStep] at hrow
      cases hpr : parse_row row true with
      | none => rw [hpr] at hrow; simp at hrow
      | some parts =>
        rw [hpr] at hrow
        simp only [Option.map_some'] at hrow
        cases hrow
        simp [hinv, List.map_append]

/-- C8 (amended): after `parse(rows)`, the accumulated `count` equals the
sum of the counts of the (auto-corrected, split) parts the file holds — not
the sum of the raw per-row count fields, which `parse` never accumulates. -/
theorem claim_C8 (rows : List (List Str)) (mf : MozaikMasterFile)
    (h : parse rows = some mf) :
    mf.count = (mf.parts.map (fun p => p.count)).sum := by
  exact parse_foldl_invariant rows ({} : MozaikMasterFile) mf rfl h

/-- Witness for C8: a one-row file whose location `"R1:1 R2:2&3"` splits
into three parts. -/
theorem claim_C8_witness :
    ((parse [[("2").toList, ("5").toList, ("10").toList, ("TR").toList,
        ("R1:1 R2:2&3").toList, ("x").toList]]).map (fun mf => mf.count) =
      (parse [[("2").toList, ("5").toList, ("10").toList, ("TR").toList,
        ("R1:1 R2:2&3").toList, ("x").toList]]).map
        (fun mf => (mf.parts.map (fun p => p.count)).sum)) ∧
    (parse [[("2").toList, ("5").toList, ("10").toList, ("TR").toList,
        ("R1:1 R2:2&3").toList, ("x").toList]]).isSome = true := by
  refine ⟨?_, by decide⟩
  rcases hp : parse [[("2").toList, ("5").toList, ("10").toList, ("TR").toList,
      ("R1:1 R2:2&3").toList, ("x").toList]] with _ | mf
  · exact absurd hp (by decide)
  · simp only [Option.map_some']
    rw [claim_C8 _ mf hp]

/-- Counterexample for C8 as stated: the row supplies raw count 2, but
location `"R1:1 R2:2&3"` is auto-corrected and split into three parts, and
`parse` accumulates 3. -/
theorem claim_C8_cex :
    ((parse [[("2").toList, ("5").toList, ("10").toList, ("TR").toList,
        ("R1:1 R2:2&3").toList, ("x").toList]]).map (fun mf => mf.count) =
      some 3) ∧
    pyIntOfStr (("2").toList) = some 2 ∧ (3 : Int) ≠ 2 := by
  refine ⟨by decide, by decide, by decide⟩

/-! ## Association-list lemmas (dict semantics) -/

section AssocLemmas

variable {κ α : Type} [DecidableEq κ]

theorem alookup_updateA_self (k : κ) (f : Option α → α) (l : List (κ × α)) :
    alookup k (updateA k f l) = some (f (alookup k l)) := by
  induction l with
  | nil => simp [updateA, alookup]
  | cons e t ih =>
    by_cases he : e.1 = k
    · simp [updateA, alookup, he]
    · simp [updateA, alookup, he, ih]

theorem alookup_updateA_ne {k k' : κ} (h : k' ≠ k) (f : Option α → α)
    (l : List (κ × α)) :
    alookup k' (updateA k f l) = alookup k' l := by
  induction l with
  | nil =>
    rw [updateA, alookup, alookup, if_neg (fun hh : k = k' => h hh.symm)]
    rfl
  | cons e t ih =>
    by_cases he : e.1 = k
    · rw [updateA, if_pos he, alookup,
        if_neg (fun hh : k = k' => h hh.symm), alookup,
        if_neg (fun hh : e.1 = k' => h (he ▸ hh).symm)]
    · rw [updateA, if_neg he, alookup, alookup]
      by_cases he' : e.1 = k'
      · rw [if_pos he', if_pos he']
      · rw [if_neg he', if_neg he', ih]

theorem keys_updateA (k : κ) (f : Option α → α) (l : List (κ × α)) :
    (updateA k f l).map Prod.fst =
      if k ∈ l.map Prod.fst then l.map Prod.fst else l.map Prod.fst ++ [k] := by
  induction l with
  | nil => simp [updateA]
  | cons e t ih =>
    by_cases he : e.1 = k
    · simp [updateA, he]
    · simp only [updateA, if_neg he, List.map_cons, ih]
      have hke : ¬(k = e.1) := fun hh => he hh.symm
      by_cases hk : k ∈ t.map Prod.fst
      · rw [if_pos hk, if_pos (by simp [hk])]
      · rw [if_neg hk, if_neg (by simp [hk, hke]), List.cons_append]

theorem nodup_keys_updateA {l : List (κ × α)} (h : (l.map Prod.fst).Nodup)
    (k : κ) (f : Option α → α) :
    ((updateA k f l).map Prod.fst).Nodup := by
  rw [keys_updateA]
  by_cases hk : k ∈ l.map Prod.fst
  · simp [hk, h]
  · simp [hk, h, List.nodup_append]

theorem mem_updateA {e : κ × α} {k : κ} {f : Option α → α} {l : List (κ × α)}
    (h : e ∈ updateA k f l) : e ∈ l ∨ e = (k, f (alookup k l)) := by
  induction l with
  | nil =>
    simp only [updateA, List.mem_singleton] at h
    exact Or.inr (by rw [h]; rfl)
  | cons x t ih =>
    by_cases hx : x.1 = k
    · rw [updateA, if_pos hx] at h
      rcases List.mem_cons.mp h with h1 | h1
      · right
        rw [h1, alookup, if_pos hx]
      · exact Or.inl (List.mem_cons.mpr (Or.inr h1))
    · rw [updateA, if_neg hx] at h
      rcases List.mem_cons.mp h with h1 | h1
      · exact Or.inl (List.mem_cons.mpr (Or.inl h1))
      · rcases ih h1 with h2 | h2
        · exact Or.inl (List.mem_cons.mpr (Or.inr h2))
        · right
          rw [h2, alookup, if_neg hx]

theorem mem_of_alookup_eq_some {k : κ} {v : α} {l : List (κ × α)}
    (h : alookup k l = some v) : (k, v) ∈ l := by
  induction l with
  | nil => simp [alookup] at h
  | cons x t ih =>
    by_cases hx : x.1 = k
    · rw [alookup, if_pos hx] at h
      cases h
      exact List.mem_cons.mpr (Or.inl (by rw [← hx]))
    · rw [alookup, if_neg hx] at h
      exact List.mem_cons.mpr (Or.inr (ih h))

theorem alookup_eq_some_of_mem_nodup {k : κ} {v : α} {l : List (κ × α)}
    (hn : (l.map Prod.fst).Nodup) (h : (k, v) ∈ l) : alookup k l = some v := by
  induction l with
  | nil => simp at h
  | cons x t ih =>
    rcases List.mem_cons.mp h with h1 | h1
    · rw [← h1]
      simp [alookup]
    · have hx : x.1 ≠ k := by
        intro hcon
        have : k ∈ t.map Prod.fst :=
          List.mem_map.mpr ⟨(k, v), h1, rfl⟩
        rw [List.map_cons, List.nodup_cons] at hn
        exact hn.1 (hcon ▸ this)
      rw [alookup, if_neg hx]
      exact ih (by rw [List.map_cons, List.nodup_cons] at hn; exact hn.2) h1

theorem updateA_ne_nil (k : κ) (f : Option α → α) (l : List (κ × α)) :
    updateA k f l ≠ [] := by
  cases l with
  | nil => simp [updateA]
  | cons x t =>
    rw [updateA]
    split <;> simp

theorem updateA_not_mem (k : κ) (f : Option α → α) {l : List (κ × α)}
    (h : k ∉ l.map Prod.fst) : updateA k f l = l ++ [(k, f none)] := by
  induction l with
  | nil => rfl
  | cons x t ih =>
    have hx : x.1 ≠ k := by
      intro hcon
      exact h (by simp [hcon.symm])
    rw [updateA, if_neg hx, ih (fun hc => h (by simp [hc]))]
    rfl

theorem updateA_append_last (k : κ) (f : Option α → α) {l : List (κ × α)}
    (w : α) (h : k ∉ l.map Prod.fst) :
    updateA k f (l ++ [(k, w)]) = l ++ [(k, f (some w))] := by
  induction l with
  | nil => simp [updateA]
  | cons x t ih =>
    have hx : x.1 ≠ k := by
      intro hcon
      exact h (by simp [hcon.symm])
    rw [List.cons_append, updateA, if_neg hx,
      ih (fun hc => h (by simp [hc]))]
    rfl

theorem updateA_congr {k : κ} {f g : Option α → α} {l : List (κ × α)}
    (h : f (alookup k l) = g (alookup k l)) : updateA k f l = updateA k g l := by
  induction l with
  | nil =>
    simp only [alookup] at h
    rw [updateA, updateA, h]
  | cons e t ih =>
    by_cases he : e.1 = k
    · simp only [alookup, if_pos he] at h
      rw [updateA, updateA, if_pos he, if_pos he, h]
    · simp only [alookup, if_neg he] at h
      rw [updateA, updateA, if_neg he, if_neg he, ih h]

theorem filter_singleton_alookup (k : κ) (v : α) (d : List (κ × α)) :
    ([(k, v)].filter (fun e => (alookup e.1 d).isNone)) =
      if (alookup k d).isNone then [(k, v)] else [] := by
  rw [List.filter_cons]
  simp only [List.filter_nil]

theorem mergeA_singleton (m : α → α → α) {l : List (κ × α)}
    (hn : (l.map Prod.fst).Nodup) (k : κ) (v : α) :
    mergeA m l [(k, v)] =
      updateA k (fun o => match o with | some w => m w v | none => v) l := by
  induction l with
  | nil => simp [mergeA, updateA, alookup]
  | cons x t ih =>
    rw [List.map_cons, List.nodup_cons] at hn
    by_cases hx : x.1 = k
    · have hmap : t.map (fun e =>
          match alookup e.1 [(k, v)] with
          | some w => (e.1, m e.2 w)
          | none => e) = t.map id := by
        apply List.map_congr_left
        intro e he
        have hek : ¬(k = e.1) := by
          intro hcon
          exact hn.1 (List.mem_map.mpr ⟨e, he, by rw [hx, hcon]⟩)
        simp [alookup, hek]
      have hlk : alookup k (x :: t) = some x.2 := by
        rw [alookup, if_pos hx]
      simp only [mergeA, List.map_cons, hmap, List.map_id,
        filter_singleton_alookup, hlk, Option.isNone_some,
        Bool.false_eq_true, if_false, List.append_nil]
      rw [updateA, if_pos hx]
      have hxv : alookup x.1 [(k, v)] = some v := by
        simp [alookup, hx.symm]
      rw [hxv, hx]
    · have hkx : ¬(k = x.1) := fun hh => hx hh.symm
      have hxv : alookup x.1 [(k, v)] = none := by
        rw [alookup, if_neg hkx]
        rfl
      have hstepFil : ([(k, v)].filter (fun e => (alookup e.1 (x :: t)).isNone)) =
          ([(k, v)].filter (fun e => (alookup e.1 t).isNone)) := by
        rw [filter_singleton_alookup, filter_singleton_alookup,
          alookup, if_neg hx]
      have hlhs : mergeA m (x :: t) [(k, v)] = x :: mergeA m t [(k, v)] := by
        simp only [mergeA, List.map_cons, hxv, hstepFil]
        rfl
      rw [hlhs, ih hn.2, updateA, if_neg hx]

end AssocLemmas

/-! ## The level laws, bottom level -/

theorem baseLaws : LevelLaws baseOps where
  wf_empty := trivial
  wf_insert := fun _ _ _ _ => trivial
  lookup_empty_getD := fun _ => rfl
  lookup_empty_cases := Or.inr (fun _ _ => rfl)
  lookup_insert_self := fun _ _ _ => rfl
  lookup_insert_ne := fun _ p p' _ h => absurd rfl h
  emit_mem := fun t p c _ => by
    constructor
    · intro h
      have h' : (p, c) = ((), t) := List.mem_singleton.mp h
      rw [show c = t from congrArg Prod.snd h']
      rfl
    · intro h
      have h' : t = c := Option.some.inj h
      rw [← h']
      exact List.mem_singleton.mpr (by cases p; rfl)
  emit_fst_nodup := fun t _ => List.nodup_singleton _
  emit_insert_ne := fun _ _ _ => by simp [baseOps]
  merge_single := fun t p c _ => by
    show t + (0 + c) = t + c
    omega
  rebuild := fun t _ => by
    show 0 + t = t
    omega

/-! ## The level laws are preserved by `liftOps` -/

section LiftLaws

variable {β π : Type} {κ : Type} [DecidableEq κ]

theorem liftOps_emit_eq (L : LevelOps β π) (t : List (κ × β)) :
    (liftOps κ L).emit t =
      t.flatMap (fun e => (L.emit e.2).map (fun q => ((e.1, q.1), q.2))) := rfl

theorem lift_wf_iff (L : LevelOps β π) (t : List (κ × β)) :
    (liftOps κ L).WF t ↔
      ((t.map Prod.fst).Nodup ∧ ∀ e ∈ t, L.WF e.2 ∧ L.emit e.2 ≠ []) := Iff.rfl

theorem lift_wf_empty (L : LevelOps β π) : (liftOps κ L).WF (liftOps κ L).empty := by
  rw [lift_wf_iff]
  exact ⟨List.nodup_nil, fun e he => absurd he (List.not_mem_nil e)⟩

theorem lift_wf_insert (L : LevelOps β π) (hL : LevelLaws L)
    (t : List (κ × β)) (kp : κ × π) (c : Int) (h : (liftOps κ L).WF t) :
    (liftOps κ L).WF ((liftOps κ L).insert t kp c) := by
  rw [lift_wf_iff] at h ⊢
  constructor
  · exact nodup_keys_updateA h.1 kp.1 _
  · intro e he
    rcases mem_updateA he with h1 | h1
    · exact h.2 e h1
    · have hval : e.2 = L.insert ((alookup kp.1 t).getD L.empty) kp.2 c := by
        rw [h1]
      rw [hval]
      refine ⟨hL.wf_insert _ _ _ ?_, hL.emit_insert_ne _ _ _⟩
      cases ha : alookup kp.1 t with
      | none => exact hL.wf_empty
      | some s =>
        exact (h.2 (kp.1, s) (mem_of_alookup_eq_some ha)).1

theorem lift_insert_eq (L : LevelOps β π) (t : List (κ × β)) (kp : κ × π)
    (c : Int) :
    (liftOps κ L).insert t kp c =
      updateA kp.1 (fun o => L.insert (o.getD L.empty) kp.2 c) t := rfl

theorem lift_lookup_eq (L : LevelOps β π) (t : List (κ × β)) (kp : κ × π) :
    (liftOps κ L).lookup t kp =
      (alookup kp.1 t).bind (fun s => L.lookup s kp.2) := rfl

theorem lift_lookup_insert_self (L : LevelOps β π) (hL : LevelLaws L)
    (t : List (κ × β)) (kp : κ × π) (c : Int) :
    (liftOps κ L).lookup ((liftOps κ L).insert t kp c) kp =
      some (((liftOps κ L).lookup t kp).getD 0 + c) := by
  rw [lift_insert_eq, lift_lookup_eq, lift_lookup_eq]
  cases ha : alookup kp.1 t with
  | none =>
    rw [alookup_updateA_self, ha]
    show L.lookup (L.insert L.empty kp.2 c) kp.2 = some (0 + c)
    rw [hL.lookup_insert_self, hL.lookup_empty_getD]
  | some s =>
    rw [alookup_updateA_self, ha]
    show L.lookup (L.insert s kp.2 c) kp.2 =
      some ((L.lookup s kp.2).getD 0 + c)
    rw [hL.lookup_insert_self]

theorem lift_lookup_insert_ne (L : LevelOps β π) (hL : LevelLaws L)
    (t : List (κ × β)) (kp kp' : κ × π) (c : Int) (h : kp' ≠ kp) :
    (liftOps κ L).lookup ((liftOps κ L).insert t kp c) kp' =
      (liftOps κ L).lookup t kp' := by
  rw [lift_insert_eq, lift_lookup_eq, lift_lookup_eq]
  by_cases hk : kp'.1 = kp.1
  · have hp : kp'.2 ≠ kp.2 := by
      intro hcon
      exact h (Prod.ext hk hcon)
    rw [hk, alookup_updateA_self]
    cases ha : alookup kp.1 t with
    | none =>
      show L.lookup (L.insert L.empty kp.2 c) kp'.2 = none
      rw [hL.lookup_insert_ne _ _ _ _ hp]
      rcases hL.lookup_empty_cases with hc | hc
      · exact hc kp'.2
      · exact absurd (hc kp'.2 kp.2) hp
    | some s =>
      show L.lookup (L.insert s kp.2 c) kp'.2 = L.lookup s kp'.2
      rw [hL.lookup_insert_ne _ _ _ _ hp]
  · rw [alookup_updateA_ne hk]

theorem lift_emit_keys_mem (L : LevelOps β π) (t : List (κ × β)) {x : κ × π}
    (hx : x ∈ ((liftOps κ L).emit t).map Prod.fst) : x.1 ∈ t.map Prod.fst := by
  rw [liftOps_emit_eq, List.mem_map] at hx
  obtain ⟨y, hy, hxy⟩ := hx
  rw [List.mem_flatMap] at hy
  obtain ⟨e, he, hye⟩ := hy
  rw [List.mem_map] at hye
  obtain ⟨q, _, hq⟩ := hye
  have h1 : x.1 = e.1 := by rw [← hxy, ← hq]
  rw [h1]
  exact List.mem_map.mpr ⟨e, he, rfl⟩

theorem lift_emit_mem (L : LevelOps β π) (hL : LevelLaws L)
    (t : List (κ × β)) (kp : κ × π) (c : Int) (h : (liftOps κ L).WF t) :
    ((kp, c) ∈ (liftOps κ L).emit t ↔ (liftOps κ L).lookup t kp = some c) := by
  have h' := (lift_wf_iff L t).mp h
  rw [liftOps_emit_eq, lift_lookup_eq]
  constructor
  · intro hm
    rw [List.mem_flatMap] at hm
    obtain ⟨e, he, hm⟩ := hm
    rw [List.mem_map] at hm
    obtain ⟨q, hq, heq⟩ := hm
    have hk : (e.1, q.1) = kp := congrArg Prod.fst heq
    have hc : q.2 = c := congrArg Prod.snd heq
    have ha : alookup kp.1 t = some e.2 := by
      rw [← hk]
      exact alookup_eq_some_of_mem_nodup h'.1 (by rw [Prod.mk.eta]; exact he)
    rw [ha]
    show L.lookup e.2 kp.2 = some c
    have hq2 : kp.2 = q.1 := by rw [← hk]
    rw [hq2, ← hc]
    exact (hL.emit_mem e.2 q.1 q.2 (h'.2 e he).1).mp
      (by rw [Prod.mk.eta]; exact hq)
  · intro hl
    cases ha : alookup kp.1 t with
    | none =>
      rw [ha] at hl
      simp at hl
    | some s =>
      rw [ha] at hl
      have hls : L.lookup s kp.2 = some c := hl
      have hm : (kp.2, c) ∈ L.emit s :=
        (hL.emit_mem s kp.2 c
          (h'.2 (kp.1, s) (mem_of_alookup_eq_some ha)).1).mpr hls
      rw [List.mem_flatMap]
      refine ⟨(kp.1, s), mem_of_alookup_eq_some ha, ?_⟩
      rw [List.mem_map]
      refine ⟨(kp.2, c), hm, ?_⟩
      show ((kp.1, kp.2), c) = (kp, c)
      rw [Prod.mk.eta]

theorem emit_block_keys (L : LevelOps β π) (k : κ) (b : β) :
    (((L.emit b).map (fun q => ((k, q.1), q.2))).map Prod.fst) =
      (L.emit b).map (fun q => (k, q.1)) := by
  rw [List.map_map]
  rfl

theorem lift_emit_fst_nodup (L : LevelOps β π) (hL : LevelLaws L)
    (t : List (κ × β)) (h : (liftOps κ L).WF t) :
    (((liftOps κ L).emit t).map Prod.fst).Nodup := by
  induction t with
  | nil => exact List.nodup_nil
  | cons e rest ih =>
    have h' := (lift_wf_iff L _).mp h
    rw [List.map_cons, List.nodup_cons] at h'
    have hwfr : (liftOps κ L).WF rest :=
      (lift_wf_iff L rest).mpr
        ⟨h'.1.2, fun x hx => h'.2 x (List.mem_cons_of_mem e hx)⟩
    rw [liftOps_emit_eq, List.flatMap_cons, List.map_append]
    apply List.Nodup.append
    · rw [emit_block_keys]
      have hinj : Function.Injective (fun p : π => (e.1, p)) :=
        fun a b hab => (Prod.ext_iff.mp hab).2
      have hnod := List.Nodup.map hinj
        (hL.emit_fst_nodup e.2 (h'.2 e (List.mem_cons_self e rest)).1)
      rw [List.map_map] at hnod
      exact hnod
    · rw [← liftOps_emit_eq]
      exact ih hwfr
    · intro x hx1 hx2
      rw [emit_block_keys, List.mem_map] at hx1
      obtain ⟨q, _, hq⟩ := hx1
      have hx1e : x.1 = e.1 := by rw [← hq]
      have hxr : x.1 ∈ rest.map Prod.fst :=
        lift_emit_keys_mem L rest (by rw [liftOps_emit_eq]; exact hx2)
      rw [hx1e] at hxr
      exact h'.1.1 hxr

theorem lift_emit_insert_ne (L : LevelOps β π) (hL : LevelLaws L)
    (t : List (κ × β)) (kp : κ × π) (c : Int) :
    (liftOps κ L).emit ((liftOps κ L).insert t kp c) ≠ [] := by
  intro hnil
  have he : (kp.1, L.insert ((alookup kp.1 t).getD L.empty) kp.2 c) ∈
      (liftOps κ L).insert t kp c := by
    apply mem_of_alookup_eq_some
    rw [lift_insert_eq, alookup_updateA_self]
  obtain ⟨q, hq⟩ := List.exists_mem_of_ne_nil _
    (hL.emit_insert_ne ((alookup kp.1 t).getD L.empty) kp.2 c)
  have hmem : ((kp.1, q.1), q.2) ∈
      (liftOps κ L).emit ((liftOps κ L).insert t kp c) := by
    rw [liftOps_emit_eq, List.mem_flatMap]
    exact ⟨_, he, List.mem_map.mpr ⟨q, hq, rfl⟩⟩
  rw [hnil] at hmem
  exact absurd hmem (List.not_mem_nil _)

theorem lift_merge_single (L : LevelOps β π) (hL : LevelLaws L)
    (t : List (κ × β)) (kp : κ × π) (c : Int) (h : (liftOps κ L).WF t) :
    (liftOps κ L).merge t ((liftOps κ L).insert (liftOps κ L).empty kp c) =
      (liftOps κ L).insert t kp c := by
  have h' := (lift_wf_iff L t).mp h
  show mergeA L.merge t [(kp.1, L.insert L.empty kp.2 c)] = _
  rw [mergeA_singleton L.merge h'.1, lift_insert_eq]
  apply updateA_congr
  cases ha : alookup kp.1 t with
  | none => rfl
  | some w =>
    show L.merge w (L.insert L.empty kp.2 c) = L.insert ((some w).getD L.empty) kp.2 c
    exact hL.merge_single w kp.2 c
      (h'.2 (kp.1, w) (mem_of_alookup_eq_some ha)).1

theorem lift_foldl_block_aux (L : LevelOps β π) (k : κ) (qs : List (π × Int)) :
    ∀ (l : List (κ × β)) (s : β), k ∉ l.map Prod.fst →
    (qs.map (fun q => ((k, q.1), q.2))).foldl
        (fun a x => (liftOps κ L).insert a x.1 x.2) (l ++ [(k, s)]) =
      l ++ [(k, qs.foldl (fun w x => L.insert w x.1 x.2) s)] := by
  induction qs with
  | nil =>
    intro l s _
    rfl
  | cons q qs ih =>
    intro l s hk
    rw [List.map_cons, List.foldl_cons, List.foldl_cons]
    have h1 : (liftOps κ L).insert (l ++ [(k, s)])
        ((k, q.1), q.2).1 ((k, q.1), q.2).2 = l ++ [(k, L.insert s q.1 q.2)] := by
      show (liftOps κ L).insert (l ++ [(k, s)]) (k, q.1) q.2 = _
      rw [lift_insert_eq]
      exact updateA_append_last k _ s hk
    rw [h1]
    exact ih l (L.insert s q.1 q.2) hk

theorem lift_foldl_block (L : LevelOps β π) (k : κ) (q0 : π × Int)
    (qs : List (π × Int)) (l : List (κ × β)) (hk : k ∉ l.map Prod.fst) :
    ((q0 :: qs).map (fun q => ((k, q.1), q.2))).foldl
        (fun a x => (liftOps κ L).insert a x.1 x.2) l =
      l ++ [(k, (q0 :: qs).foldl (fun w x => L.insert w x.1 x.2) L.empty)] := by
  rw [List.map_cons, List.foldl_cons, List.foldl_cons]
  have h1 : (liftOps κ L).insert l ((k, q0.1), q0.2).1 ((k, q0.1), q0.2).2 =
      l ++ [(k, L.insert L.empty q0.1 q0.2)] := by
    show (liftOps κ L).insert l (k, q0.1) q0.2 = _
    rw [lift_insert_eq]
    exact updateA_not_mem _ _ hk
  rw [h1]
  exact lift_foldl_block_aux L k qs l (L.insert L.empty q0.1 q0.2) hk

theorem lift_rebuild (L : LevelOps β π) (hL : LevelLaws L)
    (t : List (κ × β)) (h : (liftOps κ L).WF t) :
    ((liftOps κ L).emit t).foldl
      (fun a e => (liftOps κ L).insert a e.1 e.2) (liftOps κ L).empty = t := by
  induction t using List.reverseRecOn with
  | nil => rfl
  | append_singleton t' e ih =>
    have hw := (lift_wf_iff L _).mp h
    have hkeys := hw.1
    rw [List.map_append] at hkeys
    have hnd := List.nodup_append.mp hkeys
    have hk : e.1 ∉ t'.map Prod.fst := fun hm => hnd.2.2 hm (by simp)
    have hwf' : (liftOps κ L).WF t' :=
      (lift_wf_iff L t').mpr
        ⟨hnd.1, fun x hx => hw.2 x (List.mem_append_left _ hx)⟩
    have he2 := hw.2 e (List.mem_append_right _ (List.mem_singleton_self e))
    rw [liftOps_emit_eq, List.flatMap_append, List.foldl_append,
      ← liftOps_emit_eq L t', ih hwf',
      List.flatMap_cons, List.flatMap_nil, List.append_nil]
    cases hq : L.emit e.2 with
    | nil => exact absurd hq he2.2
    | cons q0 qs =>
      rw [lift_foldl_block L e.1 q0 qs t' hk, ← hq, hL.rebuild e.2 he2.1,
        Prod.mk.eta]

end LiftLaws

/-- Lifting one dict level preserves all the level laws. -/
theorem liftLaws {β π : Type} {κ : Type} [DecidableEq κ]
    (L : LevelOps β π) (hL : LevelLaws L) : LevelLaws (liftOps κ L) where
  wf_empty := lift_wf_empty L
  wf_insert := fun t p c h => lift_wf_insert L hL t p c h
  lookup_empty_getD := fun _ => rfl
  lookup_empty_cases := Or.inl (fun _ => rfl)
  lookup_insert_self := fun t p c => lift_lookup_insert_self L hL t p c
  lookup_insert_ne := fun t p p' c h => lift_lookup_insert_ne L hL t p p' c h
  emit_mem := fun t p c h => lift_emit_mem L hL t p c h
  emit_fst_nodup := fun t h => lift_emit_fst_nodup L hL t h
  emit_insert_ne := fun t p c => lift_emit_insert_ne L hL t p c
  merge_single := fun t p c h => lift_merge_single L hL t p c h
  rebuild := fun t h => lift_rebuild L hL t h

theorem laws0 : LevelLaws Ops0 := liftLaws baseOps baseLaws

theorem laws1 : LevelLaws Ops1 := liftLaws Ops0 laws0

theorem laws2 : LevelLaws Ops2 := liftLaws Ops1 laws1

theorem laws3 : LevelLaws Ops3 := liftLaws Ops2 laws2

/-- All eleven level laws hold for the full five-level tree of
`MozaikPart.tree`. -/
theorem laws4 : LevelLaws Ops4 := liftLaws Ops3 laws3

/-- Witness for C9: an unparseable count fails, an integer-string count
with a falsy (`None`) location succeeds with an empty location. -/
theorem claim_C9_witness :
    ((initPart { count := .str (("x2").toList), no := some (("R1:1").toList) }).isSome
      ↔ (coerceCount (.str (("x2").toList))).isSome) ∧
    (mkPartCore { count := .str (("7").toList) } 7).no = [] := by
  constructor
  · exact (claim_C9 { count := .str (("x2").toList), no := some (("R1:1").toList) }).1
  · exact (claim_C9 { count := .str (("7").toList) }).2 (Or.inl rfl)
      (mkPartCore { count := .str (("7").toList) } 7) (by decide)

/-! ## Whitespace stripping: when `strip()` is the identity -/

theorem dropWhile_length_le (p : Char → Bool) (l : Str) :
    (l.dropWhile p).length ≤ l.length := by
  induction l with
  | nil => simp
  | cons c t ih =>
    rw [List.dropWhile_cons]
    by_cases hp : p c
    · rw [if_pos hp]
      simp only [List.length_cons]
      omega
    · rw [if_neg hp]

theorem dropWhile_eq_self_of_length {p : Char → Bool} {l : Str}
    (h : (l.dropWhile p).length = l.length) : l.dropWhile p = l := by
  cases l with
  | nil => rfl
  | cons c t =>
    rw [List.dropWhile_cons] at h ⊢
    by_cases hp : p c
    · rw [if_pos hp] at h
      have := dropWhile_length_le p t
      simp only [List.length_cons] at h
      omega
    · rw [if_neg hp]

theorem dropWhile_eq_self_of_head {p : Char → Bool} {s : Str}
    (h : ∀ c ∈ s.head?, p c = false) : s.dropWhile p = s := by
  cases s with
  | nil => rfl
  | cons c t =>
    rw [List.dropWhile_cons, h c rfl]
    simp

theorem head_false_of_dropWhile_eq_self {p : Char → Bool} {s : Str}
    (h : s.dropWhile p = s) : ∀ c ∈ s.head?, p c = false := by
  cases s with
  | nil => intro c hc; simp at hc
  | cons c t =>
    intro x hx
    have hxc : c = x := by simpa using hx
    subst hxc
    rw [List.dropWhile_cons] at h
    by_cases hp : p c
    · rw [if_pos hp] at h
      have hlen := congrArg List.length h
      have := dropWhile_length_le p t
      simp only [List.length_cons] at hlen
      omega
    · simpa using hp

theorem strip_decomp {s : Str} (h : pyStrip s = s) :
    s.dropWhile pySpace = s ∧ s.reverse.dropWhile pySpace = s.reverse := by
  have hlen := congrArg List.length h
  rw [pyStrip] at hlen
  simp only [List.length_reverse] at hlen
  have h1 := dropWhile_length_le pySpace s
  have h2 := dropWhile_length_le pySpace (s.dropWhile pySpace).reverse
  rw [List.length_reverse] at h2
  have ha : (s.dropWhile pySpace).length = s.length := by omega
  have haeq : s.dropWhile pySpace = s := dropWhile_eq_self_of_length ha
  refine ⟨haeq, ?_⟩
  rw [haeq] at hlen
  exact dropWhile_eq_self_of_length (by rw [List.length_reverse]; omega)

theorem strip_head {s : Str} (h : pyStrip s = s) :
    ∀ c ∈ s.head?, pySpace c = false :=
  head_false_of_dropWhile_eq_self (strip_decomp h).1

theorem strip_last {s : Str} (h : pyStrip s = s) :
    ∀ c ∈ s.getLast?, pySpace c = false := by
  intro c hc
  refine head_false_of_dropWhile_eq_self (strip_decomp h).2 c ?_
  rw [List.head?_reverse]
  exact hc

theorem pyStrip_eq_self_of_edges {s : Str}
    (h1 : ∀ c ∈ s.head?, pySpace c = false)
    (h2 : ∀ c ∈ s.getLast?, pySpace c = false) : pyStrip s = s := by
  have ha : s.dropWhile pySpace = s := dropWhile_eq_self_of_head h1
  have hb : s.reverse.dropWhile pySpace = s.reverse := by
    apply dropWhile_eq_self_of_head
    rw [List.head?_reverse]
    exact h2
  rw [pyStrip, ha, hb, List.reverse_reverse]

theorem pyStrip_of_no_space {s : Str} (h : ∀ c ∈ s, pySpace c = false) :
    pyStrip s = s :=
  pyStrip_eq_self_of_edges
    (fun c hc => h c (List.mem_of_mem_head? hc))
    (fun c hc => h c (List.mem_of_mem_getLast? hc))

theorem pyStrip_append_eq_self {s a : Str} (hs : pyStrip s = s) (hne : s ≠ [])
    (ha : ∀ c ∈ a.getLast?, pySpace c = false) : pyStrip (s ++ a) = s ++ a := by
  apply pyStrip_eq_self_of_edges
  · intro c hc
    rw [List.head?_append] at hc
    cases hhead : s.head? with
    | none =>
      cases s with
      | nil => exact absurd rfl hne
      | cons x xs => simp at hhead
    | some d =>
      rw [hhead, Option.or_some] at hc
      have hcd : d = c := by simpa using hc
      subst hcd
      exact strip_head hs d (by rw [hhead]; rfl)
  · intro c hc
    rw [List.getLast?_append] at hc
    cases hlast : a.getLast? with
    | none =>
      rw [hlast, Option.none_or] at hc
      exact strip_last hs c hc
    | some d =>
      rw [hlast, Option.or_some] at hc
      have hcd : d = c := by simpa using hc
      subst hcd
      exact ha d hlast

/-! ## Decimal rendering: `str(n)` and its round trip through `int()` -/

/-- Every property of a decimal digit character needed below, bundled. -/
theorem digitChar_props (m : Nat) (hm : m < 10) :
    (Nat.digitChar m).isDigit = true ∧ pySpace (Nat.digitChar m) = false ∧
    Nat.digitChar m ≠ '(' ∧ Nat.digitChar m ≠ ')' ∧ Nat.digitChar m ≠ ':' ∧
    Nat.digitChar m ≠ '&' ∧ Nat.digitChar m ≠ 'r' ∧ Nat.digitChar m ≠ 'R' ∧
    Nat.digitChar m ≠ ' ' ∧ (Nat.digitChar m).toNat - 48 = m := by
  interval_cases m <;> decide

theorem natToStrAux_mem {fuel n : Nat} {c : Char}
    (h : c ∈ natToStrAux fuel n) : ∃ m, m < 10 ∧ c = Nat.digitChar m := by
  induction fuel generalizing n with
  | zero =>
    refine ⟨n % 10, Nat.mod_lt n (by norm_num), ?_⟩
    simpa [natToStrAux] using h
  | succ fuel ih =>
    rw [natToStrAux] at h
    by_cases h10 : n < 10
    · rw [if_pos h10] at h
      exact ⟨n, h10, List.mem_singleton.mp h⟩
    · rw [if_neg h10] at h
      rcases List.mem_append.mp h with h1 | h1
      · exact ih h1
      · exact ⟨n % 10, Nat.mod_lt n (by omega), List.mem_singleton.mp h1⟩

theorem natToStr_mem {n : Nat} {c : Char} (h : c ∈ natToStr n) :
    ∃ m, m < 10 ∧ c = Nat.digitChar m := natToStrAux_mem h

theorem natToStrAux_ne_nil (fuel n : Nat) : natToStrAux fuel n ≠ [] := by
  cases fuel with
  | zero => simp [natToStrAux]
  | succ fuel =>
    rw [natToStrAux]
    by_cases h10 : n < 10
    · simp [if_pos h10]
    · simp [if_neg h10]

theorem digitsVal_append_singleton (s : Str) (c : Char) :
    digitsVal (s ++ [c]) = digitsVal s * 10 + (c.toNat - 48) := by
  rw [digitsVal, digitsVal, List.foldl_append]
  rfl

theorem natToStrAux_val {fuel n : Nat} (h : n ≤ fuel) :
    digitsVal (natToStrAux fuel n) = n := by
  induction fuel generalizing n with
  | zero =>
    have hn : n = 0 := Nat.le_zero.mp h
    subst hn
    decide
  | succ fuel ih =>
    rw [natToStrAux]
    by_cases h10 : n < 10
    · rw [if_pos h10]
      have := (digitChar_props n h10).2.2.2.2.2.2.2.2.2
      show 0 * 10 + ((Nat.digitChar n).toNat - 48) = n
      omega
    · rw [if_neg h10]
      have hdiv : n / 10 < n := Nat.div_lt_self (by omega) (by norm_num)
      rw [digitsVal_append_singleton, ih (by omega)]
      have := (digitChar_props (n % 10) (Nat.mod_lt n (by omega))).2.2.2.2.2.2.2.2.2
      omega

theorem natToStr_val (n : Nat) : digitsVal (natToStr n) = n :=
  natToStrAux_val le_rfl

theorem natToStr_ne_nil (n : Nat) : natToStr n ≠ [] := natToStrAux_ne_nil n n

theorem natToStrAux_length_le {k fuel n : Nat} (hf : n ≤ fuel)
    (hk : n < 10 ^ k) (h1 : 1 ≤ k) : (natToStrAux fuel n).length ≤ k := by
  induction fuel generalizing n k with
  | zero => simpa [natToStrAux] using h1
  | succ fuel ih =>
    rw [natToStrAux]
    by_cases h10 : n < 10
    · rw [if_pos h10]
      simpa using h1
    · rw [if_neg h10]
      have hk2 : 2 ≤ k := by
        by_contra hlt
        have hk1 : k = 1 := by omega
        rw [hk1] at hk
        simp at hk
        omega
      have hdiv : n / 10 < n := Nat.div_lt_self (by omega) (by norm_num)
      have hdivk : n / 10 < 10 ^ (k - 1) := by
        rw [Nat.div_lt_iff_lt_mul (by norm_num : (0:Nat) < 10)]
        calc n < 10 ^ k := hk
        _ = 10 ^ (k - 1) * 10 := by
          rw [← pow_succ]
          congr 1
          omega
      have := ih (k := k - 1) (by omega) hdivk (by omega)
      rw [List.length_append]
      simp only [List.length_singleton]
      omega

theorem natToStr_length_le_3 {n : Nat} (h : n ≤ 999) :
    (natToStr n).length ≤ 3 :=
  natToStrAux_length_le le_rfl (by omega) (by norm_num)

theorem digitsVal_lt {s : Str} (hd : ∀ c ∈ s, c.toNat - 48 < 10) :
    digitsVal s < 10 ^ s.length := by
  induction s using List.reverseRecOn with
  | nil => decide
  | append_singleton t c ih =>
    rw [digitsVal_append_singleton, List.length_append]
    have h1 := hd c (by simp)
    have h2 : digitsVal t < 10 ^ t.length := ih (fun x hx => hd x (by simp [hx]))
    simp only [List.length_singleton, pow_succ]
    calc digitsVal t * 10 + (c.toNat - 48) < (digitsVal t + 1) * 10 := by omega
      _ ≤ 10 ^ t.length * 10 := Nat.mul_le_mul_right 10 h2

theorem natToStr_length_ge_4 {n : Nat} (h : 1000 ≤ n) :
    4 ≤ (natToStr n).length := by
  by_contra hlt
  have hle : (natToStr n).length ≤ 3 := by omega
  have hv := natToStr_val n
  have hbound := digitsVal_lt (s := natToStr n) (fun c hc => by
    obtain ⟨m, hm, hcm⟩ := natToStr_mem hc
    rw [hcm, (digitChar_props m hm).2.2.2.2.2.2.2.2.2]
    exact hm)
  rw [hv] at hbound
  have hmono : (10:Nat) ^ (natToStr n).length ≤ 10 ^ 3 :=
    Nat.pow_le_pow_right (by norm_num) hle
  omega

theorem pySpace_false_of_isDigit {c : Char} (h : c.isDigit = true) :
    pySpace c = false := by
  cases hps : pySpace c
  · rfl
  · exfalso
    simp only [pySpace, Bool.or_eq_true, decide_eq_true_eq] at hps
    rcases hps with ((((h1 | h1) | h1) | h1) | h1) | h1 <;>
      (rw [h1] at h; exact absurd h (by decide))

theorem pyIntDigitsRest_of_digits {s : Str} (h : ∀ c ∈ s, c.isDigit = true) :
    pyIntDigitsOk.pyIntDigitsRest s = true := by
  induction s with
  | nil => rfl
  | cons c rest ih =>
    have hc := h c (List.mem_cons_self c rest)
    have hne : ¬(c = '_') := by
      intro hcon
      rw [hcon] at hc
      exact absurd hc (by decide)
    rw [pyIntDigitsOk.pyIntDigitsRest.eq_def]
    show (if c = '_' then _ else
      c.isDigit && pyIntDigitsOk.pyIntDigitsRest rest) = true
    rw [if_neg hne, hc, ih (fun x hx => h x (List.mem_cons_of_mem c hx))]
    rfl

theorem pyIntDigitsOk_of_digits {s : Str} (hne : s ≠ [])
    (h : ∀ c ∈ s, c.isDigit = true) : pyIntDigitsOk s = true := by
  cases s with
  | nil => exact absurd rfl hne
  | cons c rest =>
    rw [pyIntDigitsOk, h c (List.mem_cons_self c rest),
      pyIntDigitsRest_of_digits (fun x hx => h x (List.mem_cons_of_mem c hx))]
    rfl

theorem pyIntOfStr_digits {s : Str} (hne : s ≠ [])
    (h : ∀ c ∈ s, c.isDigit = true) :
    pyIntOfStr s = some ((digitsVal s : Nat) : Int) := by
  have hstrip : pyStrip s = s :=
    pyStrip_of_no_space (fun c hc => pySpace_false_of_isDigit (h c hc))
  simp only [pyIntOfStr, hstrip]
  split
  · rename_i rest
    exact absurd (h '-' (List.mem_cons_self _ _)) (by decide)
  · rename_i rest
    exact absurd (h '+' (List.mem_cons_self _ _)) (by decide)
  · rw [if_pos (pyIntDigitsOk_of_digits hne h),
      List.filter_eq_self.mpr h]

theorem pyIntOfStr_intToStr {n : Int} (h : 1 ≤ n) :
    pyIntOfStr (intToStr n) = some n := by
  rw [intToStr, if_neg (by omega)]
  rw [pyIntOfStr_digits (natToStr_ne_nil n.toNat) (fun c hc => by
    obtain ⟨m, hm, hcm⟩ := natToStr_mem hc
    rw [hcm]
    exact (digitChar_props m hm).1)]
  rw [natToStr_val]
  congr 1
  exact Int.toNat_of_nonneg (by omega)

/-! ## `trim_cab_count`: structural equations and behaviour on annotations -/

theorem trimAux_cons_step (n : Nat) (c : Char) (rest : Str) :
    trimCabCountAux (n + 1) (c :: rest) =
      if c = '(' then
        (match parenGroup rest with
         | some (v, k) => trimCabCountAux n (rest.drop k)
         | none => c :: trimCabCountAux n rest)
      else c :: trimCabCountAux n rest := rfl

theorem trimAux_succ : ∀ (fuel : Nat) (s : Str), s.length ≤ fuel →
    trimCabCountAux (fuel + 1) s = trimCabCountAux fuel s := by
  intro fuel
  induction fuel with
  | zero =>
    intro s hs
    have hnil : s = [] := List.eq_nil_of_length_eq_zero (by omega)
    subst hnil
    rfl
  | succ fuel ih =>
    intro s hs
    cases s with
    | nil => rfl
    | cons c rest =>
      simp only [List.length_cons] at hs
      rw [trimAux_cons_step (fuel + 1) c rest, trimAux_cons_step fuel c rest]
      by_cases hc : c = '('
      · rw [if_pos hc, if_pos hc]
        cases hp : parenGroup rest with
        | none =>
          show c :: trimCabCountAux (fuel + 1) rest = c :: trimCabCountAux fuel rest
          rw [ih rest (by omega)]
        | some vk =>
          obtain ⟨v, k⟩ := vk
          show trimCabCountAux (fuel + 1) (rest.drop k) =
            trimCabCountAux fuel (rest.drop k)
          have hdl : (rest.drop k).length ≤ fuel := by
            rw [List.length_drop]
            omega
          rw [ih (rest.drop k) hdl]
      · rw [if_neg hc, if_neg hc, ih rest (by omega)]

theorem trimAux_add (d fuel : Nat) (s : Str) (h : s.length ≤ fuel) :
    trimCabCountAux (fuel + d) s = trimCabCountAux fuel s := by
  induction d with
  | zero => rfl
  | succ d ih => rw [show fuel + (d + 1) = fuel + d + 1 by omega,
      trimAux_succ (fuel + d) s (by omega), ih]

theorem trim_of_ge {fuel : Nat} {s : Str} (h : s.length ≤ fuel) :
    trimCabCountAux fuel s = trim_cab_count s := by
  rw [trim_cab_count, show fuel = s.length + (fuel - s.length) by omega,
    trimAux_add (fuel - s.length) s.length s le_rfl]

theorem trim_cons_not_paren {c : Char} (rest : Str) (hc : ¬(c = '(')) :
    trim_cab_count (c :: rest) = c :: trim_cab_count rest := by
  rw [trim_cab_count]
  simp only [List.length_cons, trimCabCountAux, if_neg hc]
  rfl

theorem trim_cons_paren_none {rest : Str} (hp : parenGroup rest = none) :
    trim_cab_count ('(' :: rest) = '(' :: trim_cab_count rest := by
  rw [trim_cab_count]
  simp only [List.length_cons, trimCabCountAux, if_pos rfl, hp]
  rfl

theorem trim_cons_paren {rest : Str} {v k : Nat}
    (hp : parenGroup rest = some (v, k)) :
    trim_cab_count ('(' :: rest) = trim_cab_count (rest.drop k) := by
  rw [trim_cab_count]
  simp only [List.length_cons, trimCabCountAux, if_pos rfl, hp]
  exact trim_of_ge (by rw [List.length_drop]; omega)

theorem trim_append_no_paren {s : Str} (u : Str) (h : '(' ∉ s) :
    trim_cab_count (s ++ u) = s ++ trim_cab_count u := by
  induction s with
  | nil => rfl
  | cons c t ih =>
    have hc : ¬(c = '(') := by
      intro hcon
      exact h (by rw [hcon]; exact List.mem_cons_self _ _)
    rw [List.cons_append, trim_cons_not_paren _ hc,
      ih (fun hm => h (List.mem_cons_of_mem c hm))]
    rfl

theorem trim_no_paren {s : Str} (h : '(' ∉ s) : trim_cab_count s = s := by
  have h0 := trim_append_no_paren ([] : Str) h
  rw [show trim_cab_count ([] : Str) = [] from rfl] at h0
  simpa using h0

theorem parenGroup_digits {ds : Str} (u : Str)
    (hd : ∀ c ∈ ds, c.isDigit = true) (h1 : 1 ≤ ds.length)
    (h3 : ds.length ≤ 3) :
    parenGroup (ds ++ ')' :: u) = some (digitsVal ds, ds.length + 1) := by
  have hTW : (ds ++ ')' :: u).takeWhile Char.isDigit = ds := by
    rw [List.takeWhile_append,
      if_pos (by rw [List.takeWhile_eq_self_iff.mpr hd]),
      List.takeWhile_cons, if_neg (by decide), List.append_nil]
  have hdrop : (ds ++ ')' :: u).drop ds.length = ')' :: u :=
    List.drop_left ds (')' :: u)
  simp only [parenGroup, hTW, hdrop]
  rw [if_pos ⟨h1, h3, rfl⟩]

theorem parenGroup_long {ds : Str} (u : Str)
    (hd : ∀ c ∈ ds, c.isDigit = true) (h4 : 4 ≤ ds.length) :
    parenGroup (ds ++ ')' :: u) = none := by
  have hTW : (ds ++ ')' :: u).takeWhile Char.isDigit = ds := by
    rw [List.takeWhile_append,
      if_pos (by rw [List.takeWhile_eq_self_iff.mpr hd]),
      List.takeWhile_cons, if_neg (by decide), List.append_nil]
  simp only [parenGroup, hTW]
  rw [if_neg]
  intro hcon
  omega

theorem trim_annotation {ds : Str} (u : Str)
    (hd : ∀ c ∈ ds, c.isDigit = true) (h1 : 1 ≤ ds.length)
    (h3 : ds.length ≤ 3) :
    trim_cab_count ('(' :: ds ++ ')' :: u) = trim_cab_count u := by
  rw [List.cons_append, trim_cons_paren (parenGroup_digits u hd h1 h3)]
  congr 1
  have hlen : (ds ++ [')']).length = ds.length + 1 := by simp
  rw [show ds ++ ')' :: u = (ds ++ [')']) ++ u by simp, ← hlen]
  exact List.drop_left _ _

theorem trim_long_annotation {ds : Str} (u : Str)
    (hd : ∀ c ∈ ds, c.isDigit = true) (h4 : 4 ≤ ds.length) :
    trim_cab_count ('(' :: ds ++ ')' :: u) =
      '(' :: ds ++ ')' :: trim_cab_count u := by
  rw [List.cons_append, trim_cons_paren_none (parenGroup_long u hd h4)]
  have hnp : '(' ∉ ds ++ [')'] := by
    intro hm
    rcases List.mem_append.mp hm with hm1 | hm1
    · exact absurd (hd _ hm1) (by decide)
    · simp at hm1
  have := trim_append_no_paren (s := ds ++ [')']) u hnp
  simp only [List.append_assoc, List.cons_append, List.nil_append] at this
  rw [this]
  rfl

/-! ## Splitting at the first separator -/

theorem pySplit_cons_sep (d : Str) (sep : Char) :
    pySplit (sep :: d) sep = [] :: pySplit d sep := by
  simp [pySplit]

theorem pySplit_sep_decomp {r rest : Str} {sep : Char}
    (hr : sep ∉ r) (hrest : sep ∉ rest) :
    pySplit (r ++ sep :: rest) sep = [r, rest] := by
  rw [pySplit_append_not_sep _ hr, pySplit_cons_sep,
    pySplit_of_not_mem hrest]
  simp

theorem pySplit_two_decomp {s a b : Str} {sep : Char}
    (h : pySplit s sep = [a, b]) : s = a ++ sep :: b := by
  have hmem : sep ∈ s := by
    by_contra hns
    rw [pySplit_of_not_mem hns] at h
    simp at h
  have hdec := partition_decomp hmem
  have hnt : sep ∉ s.takeWhile (fun x => x ≠ sep) := by
    intro hm
    have := List.mem_takeWhile_imp hm
    simp at this
  rw [hdec, pySplit_append_not_sep _ hnt, pySplit_cons_sep] at h
  simp only [List.headD_cons, List.tail_cons, List.append_nil] at h
  have ha : s.takeWhile (fun x => x ≠ sep) = a := (List.cons.injEq _ _ _ _).mp h |>.1
  have hb : pySplit ((s.dropWhile (fun x => x ≠ sep)).drop 1) sep = [b] :=
    (List.cons.injEq _ _ _ _).mp h |>.2
  have hnb : sep ∉ (s.dropWhile (fun x => x ≠ sep)).drop 1 := by
    intro hm
    have := pySplit_length_ge_two hm
    rw [hb] at this
    simp at this
  rw [pySplit_of_not_mem hnb] at hb
  have hbb : (s.dropWhile (fun x => x ≠ sep)).drop 1 = b := by
    simpa using hb
  rw [hdec, ha, hbb]

theorem append_first_mem_inj {x : Char} {s s' u u' : Str}
    (hs : x ∉ s) (hs' : x ∉ s') (h : s ++ x :: u = s' ++ x :: u') :
    s = s' ∧ u = u' := by
  induction s generalizing s' with
  | nil =>
    cases s' with
    | nil => simpa using h
    | cons c t =>
      rw [List.nil_append, List.cons_append] at h
      injection h with h1 h2
      exact absurd (by rw [h1]; exact List.mem_cons_self _ _) hs'
  | cons c t ih =>
    cases s' with
    | nil =>
      rw [List.nil_append, List.cons_append] at h
      injection h with h1 h2
      exact absurd (by rw [← h1]; exact List.mem_cons_self _ _) hs
    | cons c' t' =>
      rw [List.cons_append, List.cons_append] at h
      injection h with h1 h2
      subst h1
      obtain ⟨ha, hb⟩ := ih (fun hm => hs (List.mem_cons_of_mem _ hm))
        (fun hm => hs' (List.mem_cons_of_mem _ hm)) h2
      exact ⟨by rw [ha], hb⟩

/-! ## The combined location `"<room>:<cab>"` / `"<room>:<cab>(<count>)"` -/

theorem combined_location_eq_of_le {r c : Str} {n : Int} (h : ¬(n > 1)) :
    combined_location r c n = r ++ ':' :: c := by
  rw [combined_location, if_neg h, List.append_nil]

theorem combined_location_eq_of_gt {r c : Str} {n : Int} (h : n > 1) :
    combined_location r c n = r ++ ':' :: c ++ ('(' :: intToStr n ++ [')']) := by
  rw [combined_location, if_pos h]

theorem ann_mem {n : Int} {x : Char} (h2 : n > 1)
    (hx : x ∈ '(' :: intToStr n ++ [')']) :
    x = '(' ∨ x = ')' ∨ ∃ m, m < 10 ∧ x = Nat.digitChar m := by
  rcases List.mem_cons.mp hx with h | h
  · exact Or.inl h
  · rcases List.mem_append.mp h with h | h
    · rw [intToStr, if_neg (by omega)] at h
      exact Or.inr (Or.inr (natToStr_mem h))
    · exact Or.inr (Or.inl (by simpa using h))

theorem mem_of_mem_combined_location {r c : Str} {n : Int} {x : Char}
    (hx : x ∈ combined_location r c n) :
    x ∈ r ++ ':' :: c ∨ (n > 1 ∧ x ∈ '(' :: intToStr n ++ [')']) := by
  by_cases hn : n > 1
  · rw [combined_location_eq_of_gt hn] at hx
    rcases List.mem_append.mp hx with h | h
    · exact Or.inl h
    · exact Or.inr ⟨hn, h⟩
  · rw [combined_location_eq_of_le hn] at hx
    exact Or.inl hx

theorem combined_location_ne_nil (r c : Str) (n : Int) :
    combined_location r c n ≠ [] := by
  rw [combined_location]
  intro h
  have := congrArg List.length h
  simp at this

theorem rCount_append (a b : Str) : rCount (a ++ b) = rCount a + rCount b := by
  rw [rCount, rCount, rCount, List.filter_append, List.length_append]

theorem rCount_combined {r c : Str} {n : Int} :
    rCount (combined_location r c n) = rCount (r ++ ':' :: c) := by
  by_cases hn : n > 1
  · rw [combined_location_eq_of_gt hn, rCount_append]
    have hz : rCount ('(' :: intToStr n ++ [')']) = 0 := by
      rw [rCount, List.length_eq_zero]
      rw [List.filter_eq_nil_iff]
      intro a ha
      rcases ann_mem hn ha with h | h | ⟨m, hm, h⟩ <;>
        (subst h; first
          | decide
          | (obtain ⟨hd, _⟩ := digitChar_props m hm
             simp only [Bool.or_eq_true, decide_eq_true_eq]
             rintro (h1 | h1) <;> (rw [h1] at hd; exact absurd hd (by decide))))
    omega
  · rw [combined_location_eq_of_le hn]

theorem contains_combined {r c : Str} {n : Int} {x : Char}
    (hxp : x ≠ '(') (hxq : x ≠ ')') (hxd : x.isDigit = false) :
    (x ∈ combined_location r c n) ↔ x ∈ r ++ ':' :: c := by
  constructor
  · intro hx
    rcases mem_of_mem_combined_location hx with h | ⟨hn, h⟩
    · exact h
    · exfalso
      rcases ann_mem hn h with h1 | h1 | ⟨m, hm, h1⟩
      · exact hxp h1
      · exact hxq h1
      · rw [h1] at hxd
        rw [(digitChar_props m hm).1] at hxd
        exact absurd hxd (by decide)
  · intro hx
    by_cases hn : n > 1
    · rw [combined_location_eq_of_gt hn]
      exact List.mem_append.mpr (Or.inl hx)
    · rw [combined_location_eq_of_le hn]
      exact hx

theorem has_multi_combined {r c : Str} {n : Int}
    (hm : has_multi (r ++ ':' :: c) = false) :
    has_multi (combined_location r c n) = false := by
  have hne : r ++ ':' :: c ≠ [] := by
    intro h
    have := congrArg List.length h
    simp at this
  rw [has_multi, if_neg hne] at hm
  rw [has_multi, if_neg (combined_location_ne_nil r c n)]
  simp only [Bool.or_eq_false_iff] at hm ⊢
  obtain ⟨hcab, hroom⟩ := hm
  constructor
  · rw [has_multi_cab] at hcab ⊢
    rw [contains_eq_mem] at hcab ⊢
    simp only [decide_eq_false_iff_not] at hcab ⊢
    intro hmem
    exact hcab ((contains_combined (by decide) (by decide) (by decide)).mp hmem)
  · rw [has_multi_room] at hroom ⊢
    rw [rCount_combined]
    by_cases hsp : ' ' ∈ r ++ ':' :: c
    · rw [contains_true_of_mem hsp, Bool.and_true] at hroom
      rw [hroom, Bool.false_and]
    · rw [contains_false_of_not_mem (fun hm =>
        hsp ((contains_combined (by decide) (by decide) (by decide)).mp hm)),
        Bool.and_false]

theorem ann_not_mem {n : Int} (hn : n > 1) {x : Char} (hxp : x ≠ '(')
    (hxq : x ≠ ')') (hxd : x.isDigit = false) :
    x ∉ '(' :: intToStr n ++ [')'] := fun hm => by
  rcases ann_mem hn hm with h | h | ⟨m, hm', h⟩
  · exact hxp h
  · exact hxq h
  · rw [h, (digitChar_props m hm').1] at hxd
    exact absurd hxd (by decide)

theorem pyStrip_combined {r c : Str} {n : Int}
    (hstrip : pyStrip (r ++ ':' :: c) = r ++ ':' :: c) :
    pyStrip (combined_location r c n) = combined_location r c n := by
  have hne : r ++ ':' :: c ≠ [] := by
    intro h
    have := congrArg List.length h
    simp at this
  by_cases hn : n > 1
  · rw [combined_location_eq_of_gt hn]
    apply pyStrip_append_eq_self hstrip hne
    intro x hx
    rw [show ('(' :: intToStr n ++ [')'] : Str) =
      ('(' :: intToStr n) ++ [')'] by simp] at hx
    rw [List.getLast?_concat] at hx
    have hx' : ')' = x := by simpa using hx
    subst hx'
    decide
  · rw [combined_location_eq_of_le hn]
    exact hstrip

theorem trim_ann {n : Int} (h1 : 1 ≤ n) :
    trim_cab_count (if n > 1 then '(' :: intToStr n ++ [')'] else []) =
      if n ≤ 999 then [] else '(' :: intToStr n ++ [')'] := by
  by_cases hn : n > 1
  · rw [if_pos hn, intToStr, if_neg (by omega)]
    have hd : ∀ x ∈ natToStr n.toNat, x.isDigit = true := fun x hx => by
      obtain ⟨m, hm, hxm⟩ := natToStr_mem hx
      rw [hxm]
      exact (digitChar_props m hm).1
    have hpos : 1 ≤ (natToStr n.toNat).length :=
      List.length_pos.mpr (natToStr_ne_nil n.toNat)
    by_cases h9 : n ≤ 999
    · rw [if_pos h9]
      have h3 : (natToStr n.toNat).length ≤ 3 :=
        natToStr_length_le_3 (by omega)
      exact trim_annotation [] hd hpos h3
    · rw [if_neg h9]
      have h4 : 4 ≤ (natToStr n.toNat).length :=
        natToStr_length_ge_4 (by omega)
      exact trim_long_annotation [] hd h4
  · rw [if_neg hn, if_pos (by omega)]
    rfl

theorem trim_cab_ann {c : Str} {n : Int} (hc : '(' ∉ c) (h1 : 1 ≤ n) :
    trim_cab_count (c ++ (if n > 1 then '(' :: intToStr n ++ [')'] else [])) =
      if n ≤ 999 then c else
        c ++ ('(' :: intToStr n ++ [')']) := by
  rw [trim_append_no_paren _ hc, trim_ann h1]
  by_cases h9 : n ≤ 999
  · rw [if_pos h9, if_pos h9, List.append_nil]
  · rw [if_neg h9, if_neg h9]

theorem combined_location_split (r c : Str) (n : Int) :
    combined_location r c n =
      (r ++ ':' :: c) ++
        (if n > 1 then '(' :: intToStr n ++ [')'] else []) := by
  by_cases hn : n > 1
  · rw [combined_location_eq_of_gt hn, if_pos hn]
  · rw [combined_location_eq_of_le hn, if_neg hn, List.append_nil]

theorem combined_location_cons_split (r c : Str) (n : Int) :
    combined_location r c n =
      r ++ ':' :: (c ++ (if n > 1 then '(' :: intToStr n ++ [')'] else [])) := by
  rw [combined_location_split, List.append_assoc]
  rfl

theorem trim_combined {r c : Str} {n : Int} (hr : '(' ∉ r) (hc : '(' ∉ c)
    (h1 : 1 ≤ n) :
    trim_cab_count (combined_location r c n) =
      if n ≤ 999 then r ++ ':' :: c else combined_location r c n := by
  have hnp : '(' ∉ r ++ ':' :: c := by
    intro hm
    rcases List.mem_append.mp hm with h | h
    · exact hr h
    · rcases List.mem_cons.mp h with h | h
      · exact absurd h (by decide)
      · exact hc h
  rw [combined_location_split, trim_append_no_paren _ hnp, trim_ann h1]
  by_cases h9 : n ≤ 999
  · rw [if_pos h9, if_pos h9, List.append_nil]
  · rw [if_neg h9, if_neg h9, if_pos (show n > 1 by omega)]

theorem combined_trim_inj {r c r' c' : Str} {n n' : Int}
    (hr : '(' ∉ r) (hc : '(' ∉ c) (hr' : '(' ∉ r') (hc' : '(' ∉ c')
    (hcr : ':' ∉ r) (hcc : ':' ∉ c) (hcr' : ':' ∉ r') (hcc' : ':' ∉ c')
    (h1 : 1 ≤ n) (h1' : 1 ≤ n')
    (heq : trim_cab_count (combined_location r c n) =
      trim_cab_count (combined_location r' c' n')) : r = r' ∧ c = c' := by
  rw [trim_combined hr hc h1, trim_combined hr' hc' h1'] at heq
  by_cases h9 : n ≤ 999 <;> by_cases h9' : n' ≤ 999
  · rw [if_pos h9, if_pos h9'] at heq
    exact append_first_mem_inj hcr hcr' heq
  · rw [if_pos h9, if_neg h9', combined_location_cons_split,
      if_pos (show n' > 1 by omega)] at heq
    obtain ⟨ha, hb⟩ := append_first_mem_inj hcr hcr' heq
    exfalso
    apply hc
    rw [hb]
    exact List.mem_append.mpr (Or.inr (List.mem_cons_self _ _))
  · rw [if_neg h9, if_pos h9', combined_location_cons_split,
      if_pos (show n > 1 by omega)] at heq
    obtain ⟨ha, hb⟩ := append_first_mem_inj hcr hcr' heq
    exfalso
    apply hc'
    rw [← hb]
    exact List.mem_append.mpr (Or.inr (List.mem_cons_self _ _))
  · rw [if_neg h9, if_neg h9', combined_location_cons_split,
      combined_location_cons_split, if_pos (show n > 1 by omega),
      if_pos (show n' > 1 by omega)] at heq
    obtain ⟨ha, hb⟩ := append_first_mem_inj hcr hcr' heq
    refine ⟨ha, (append_first_mem_inj hc hc' hb).1⟩

theorem pySplit_combined {r c : Str} {n : Int} (hcr : ':' ∉ r) (hcc : ':' ∉ c)
    (h1 : 1 ≤ n) :
    pySplit (combined_location r c n) ':' =
      [r, c ++ (if n > 1 then '(' :: intToStr n ++ [')'] else [])] := by
  by_cases hn : n > 1
  · rw [combined_location_cons_split, if_pos hn]
    have hna : ':' ∉ c ++ ('(' :: intToStr n ++ [')']) := by
      intro hm
      rcases List.mem_append.mp hm with h | h
      · exact hcc h
      · exact ann_not_mem hn (by decide) (by decide) (by decide) h
    exact pySplit_sep_decomp hcr hna
  · rw [combined_location_eq_of_le hn, if_neg hn, List.append_nil]
    exact pySplit_sep_decomp hcr hcc

/-! ## From sane parts to sane keys, and the emitted leaf part -/

theorem intToStr_digits {n : Int} (h : 1 ≤ n) :
    ∀ c ∈ intToStr n, c.isDigit = true := by
  rw [intToStr, if_neg (by omega)]
  intro c hc
  obtain ⟨m, hm, hcm⟩ := natToStr_mem hc
  rw [hcm]
  exact (digitChar_props m hm).1

theorem pyStrip_intToStr {n : Int} (h : 1 ≤ n) :
    pyStrip (intToStr n) = intToStr n :=
  pyStrip_of_no_space
    (fun c hc => pySpace_false_of_isDigit (intToStr_digits h c hc))

theorem optStripInv_strip {o : Option Str} (h : optStripInv o = true) :
    pyStrip (orEmpty o) = orEmpty o := by
  cases o with
  | none => exact absurd h (by decide)
  | some s => simpa [optStripInv, orEmpty] using h

theorem optStripInv_some {o : Option Str} (h : optStripInv o = true) :
    o = some (orEmpty o) := by
  cases o with
  | none => exact absurd h (by decide)
  | some s => rfl

theorem eq_pair_of_length_two {l : List Str} (h : l.length = 2) :
    l = [l.headD [], l.getD 1 []] := by
  cases l with
  | nil => simp at h
  | cons a t =>
    cases t with
    | nil => simp at h
    | cons b t2 =>
      cases t2 with
      | nil => rfl
      | cons x t3 =>
        simp only [List.length_cons] at h
        omega

theorem sane_key_unfold {k : Path4} (h : sane_key k = true) :
    has_multi (k.1 ++ ':' :: k.2.1) = false ∧
    pyStrip (k.1 ++ ':' :: k.2.1) = k.1 ++ ':' :: k.2.1 ∧
    ':' ∉ k.1 ∧ ':' ∉ k.2.1 ∧ '(' ∉ k.1 ∧ '(' ∉ k.2.1 ∧
    optStripInv k.2.2.1 = true ∧ optStripInv k.2.2.2.1 = true ∧
    optStripInv k.2.2.2.2.1 = true ∧
    k.2.2.2.2.1 ≠ some (("{Drawer Front Size}").toList) := by
  simp only [sane_key, Bool.and_eq_true, Bool.not_eq_true',
    decide_eq_true_eq, contains_eq_mem, decide_eq_false_iff_not] at h
  obtain ⟨⟨⟨⟨⟨⟨⟨⟨⟨h1, h2⟩, h3⟩, h4⟩, h5⟩, h6⟩, h7⟩, h8⟩, h9⟩, h10⟩ := h
  exact ⟨h1, h2, h3, h4, h5, h6, h7, h8, h9, h10⟩

theorem sane_part_unfold {p : MozaikPart} (h : sane_part p = true) :
    (pySplit p.no ':').length = 2 ∧ '&' ∉ p.no ∧
    has_multi_room p.no = false ∧ '(' ∉ p.no ∧ pyStrip p.no = p.no ∧
    optStripInv p.length = true ∧ optStripInv p.extra_data = true ∧
    optStripInv p.type = true ∧
    p.type ≠ some (("{Drawer Front Size}").toList) ∧ 1 ≤ p.count := by
  simp only [sane_part, Bool.and_eq_true, Bool.not_eq_true',
    decide_eq_true_eq, contains_eq_mem, decide_eq_false_iff_not] at h
  obtain ⟨⟨⟨⟨⟨⟨⟨⟨⟨h1, h2⟩, h3⟩, h4⟩, h5⟩, h6⟩, h7⟩, h8⟩, h9⟩, h10⟩ := h
  exact ⟨h1, h2, h3, h4, h5, h6, h7, h8, h9, h10⟩

theorem has_multi_of_parts {no : Str} (hcab : '&' ∉ no)
    (hroom : has_multi_room no = false) : has_multi no = false := by
  rw [has_multi]
  by_cases hz : no = []
  · rw [if_pos hz]
  · rw [if_neg hz, has_multi_cab, contains_false_of_not_mem hcab, hroom]
    rfl

/-- The location of a sane part decomposes as `room ++ ':' :: cab`, and the
key path is built from exactly those two pieces. -/
theorem sane_no_decomp {p : MozaikPart} (h : sane_part p = true) :
    p.no = (pySplit p.no ':').headD [] ++ ':' :: (pySplit p.no ':').getD 1 [] ∧
    part_keypath p = ((pySplit p.no ':').headD [], (pySplit p.no ':').getD 1 [],
      p.length, p.extra_data, p.type, ()) := by
  obtain ⟨h1, _, _, h4, _, _, _, _, _, _⟩ := sane_part_unfold h
  have hsp := eq_pair_of_length_two h1
  have hdec := pySplit_two_decomp hsp
  refine ⟨hdec, ?_⟩
  rw [part_keypath]
  have hcsub : '(' ∉ (pySplit p.no ':').getD 1 [] := by
    intro hm
    apply h4
    rw [hdec]
    exact List.mem_append.mpr (Or.inr (List.mem_cons_of_mem _ hm))
  rw [trim_no_paren hcsub]

theorem sane_key_of_sane_part {p : MozaikPart} (h : sane_part p = true) :
    sane_key (part_keypath p) = true := by
  obtain ⟨h1, h2, h3, h4, h5, h6, h7, h8, h9, _⟩ := sane_part_unfold h
  obtain ⟨hdec, hkey⟩ := sane_no_decomp h
  rw [hkey]
  have hsp := eq_pair_of_length_two h1
  have hrmem : (pySplit p.no ':').headD [] ∈ pySplit p.no ':' := by
    rw [hsp]
    exact List.mem_cons_self _ _
  have hcmem : (pySplit p.no ':').getD 1 [] ∈ pySplit p.no ':' := by
    rw [hsp]
    exact List.mem_cons_of_mem _ (List.mem_cons_self _ _)
  simp only [sane_key, Bool.and_eq_true, Bool.not_eq_true',
    decide_eq_true_eq, contains_eq_mem, decide_eq_false_iff_not]
  refine ⟨⟨⟨⟨⟨⟨⟨⟨⟨?_, ?_⟩, ?_⟩, ?_⟩, ?_⟩, ?_⟩, ?_⟩, ?_⟩, ?_⟩, ?_⟩
  · rw [← hdec]
    exact has_multi_of_parts h2 h3
  · rw [← hdec]
    exact h5
  · exact mem_pySplit_not_sep hrmem
  · exact mem_pySplit_not_sep hcmem
  · intro hm
    exact h4 (by rw [hdec]; exact List.mem_append.mpr (Or.inl hm))
  · intro hm
    exact h4
      (by rw [hdec]; exact List.mem_append.mpr (Or.inr (List.mem_cons_of_mem _ hm)))
  · exact h6
  · exact h7
  · exact h8
  · exact h9

theorem atomic_of_sane {p : MozaikPart} (h : sane_part p = true) :
    atomic_part p = true := by
  obtain ⟨h1, h2, h3, _, _, _, _, _, _, _⟩ := sane_part_unfold h
  rw [atomic_part, has_multi_of_parts h2 h3]
  simp [h1]

theorem wf_part_unfold {p : MozaikPart} (h : wf_part p = true) :
    atomic_part p = true ∧ sane_key (part_keypath p) = true ∧ 1 ≤ p.count := by
  simp only [wf_part, Bool.and_eq_true, decide_eq_true_eq] at h
  exact ⟨h.1.1, h.1.2, h.2⟩

theorem wf_part_of_sane {p : MozaikPart} (h : sane_part p = true) :
    wf_part p = true := by
  simp only [wf_part, Bool.and_eq_true, decide_eq_true_eq]
  exact ⟨⟨atomic_of_sane h, sane_key_of_sane_part h⟩,
    (sane_part_unfold h).2.2.2.2.2.2.2.2.2⟩

/-- `iter_part_info`/`to_mozaikparts` on one leaf with a sane key and a
positive count: construction succeeds and yields exactly the combined
part. -/
theorem emittedPart_eq {k : Path4} {cnt : Int} (hk : sane_key k = true)
    (h1 : 1 ≤ cnt) : emittedPart k cnt = some (combined_part k cnt) := by
  obtain ⟨q1, q2, q3, q4, q5, q6, q7, q8, q9, q10⟩ := sane_key_unfold hk
  have hne0 : ¬(cnt = 0) := by omega
  have hcoerce : coerceCount (.str (intToStr cnt)) = some cnt := by
    show pyIntOfStr (pyStrip (intToStr cnt)) = some cnt
    rw [pyStrip_intToStr h1, pyIntOfStr_intToStr h1]
  have hstep : emittedPart k cnt = initPart
      { count := .str (intToStr cnt), length := some (orEmpty k.2.2.1),
        type := some (orEmpty k.2.2.2.2.1),
        no := some (combined_location k.1 k.2.1 cnt),
        extra_data := some (orEmpty k.2.2.2.1) } := by
    rw [emittedPart, if_neg hne0]
    rfl
  have hcore : mkPartCore
      { count := .str (intToStr cnt), length := some (orEmpty k.2.2.1),
        type := some (orEmpty k.2.2.2.2.1),
        no := some (combined_location k.1 k.2.1 cnt),
        extra_data := some (orEmpty k.2.2.2.1) } cnt =
      { count := if has_multi (pyStrip (combined_location k.1 k.2.1 cnt)) then
          fix_cab_count_value (pyStrip (combined_location k.1 k.2.1 cnt))
          else cnt
        width := none
        length := some (pyStrip (orEmpty k.2.2.1))
        type := (value_map_type (some (orEmpty k.2.2.2.2.1))).map pyStrip
        no := pyStrip (combined_location k.1 k.2.1 cnt)
        extra_data := some (pyStrip (orEmpty k.2.2.2.1)) } := rfl
  have hno : pyStrip (combined_location k.1 k.2.1 cnt) =
      combined_location k.1 k.2.1 cnt := pyStrip_combined q2
  have hmulti : has_multi (combined_location k.1 k.2.1 cnt) = false :=
    has_multi_combined q1
  have hDFS : ¬(some (orEmpty k.2.2.2.2.1) =
      some (("{Drawer Front Size}").toList)) := by
    intro hcon
    apply q10
    rw [optStripInv_some q9]
    exact hcon
  rw [hstep, initPart, hcoerce, Option.map_some', hcore, hno, hmulti,
    value_map_type, if_neg hDFS, Option.map_some', optStripInv_strip q7,
    optStripInv_strip q8, optStripInv_strip q9, combined_part]
  rw [if_neg (by decide : ¬(false = true))]

/-! ## The tree of a list of atomic parts -/

theorem split_parts_atomic {p : MozaikPart} (h : atomic_part p = true) :
    split_parts p = ([p], p) := by
  have hm : has_multi p.no = false := by
    simp only [atomic_part, Bool.and_eq_true, Bool.not_eq_true'] at h
    exact h.1
  rw [split_parts, hm]
  rfl

theorem partTreePath_atomic {p : MozaikPart} (h : atomic_part p = true) :
    partTreePath p = some (part_keypath p) := by
  have hlen : (pySplit p.no ':').length = 2 := by
    simp only [atomic_part, Bool.and_eq_true, decide_eq_true_eq] at h
    exact h.2
  have hsp := eq_pair_of_length_two hlen
  rw [part_keypath]
  set a := (pySplit p.no ':').headD [] with ha
  set b := (pySplit p.no ':').getD 1 [] with hb
  rw [partTreePath.eq_def, hsp]

theorem part_tree_atomic {p : MozaikPart} (h : atomic_part p = true) :
    part_tree p = some (Ops4.insert Ops4.empty (part_keypath p) p.count) := by
  rw [part_tree, split_parts_atomic h,
    show (([p], p) : List MozaikPart × MozaikPart).1 = [p] from rfl,
    List.foldlM_cons, partTreePath_atomic h, Option.map_some']
  rfl

theorem foldlM_merge_atomic {parts : List MozaikPart}
    (h : ∀ p ∈ parts, atomic_part p = true) :
    ∀ (acc : T4), Ops4.WF acc →
    parts.foldlM
      (fun acc p => (part_tree p).map (fun pt => Ops4.merge acc pt)) acc =
      some (parts.foldl
        (fun t p => Ops4.insert t (part_keypath p) p.count) acc) := by
  induction parts with
  | nil => intro acc _; rfl
  | cons p rest ih =>
    intro acc hwf
    rw [List.foldlM_cons, part_tree_atomic (h p (List.mem_cons_self _ _)),
      Option.map_some']
    show rest.foldlM _
      (Ops4.merge acc (Ops4.insert Ops4.empty (part_keypath p) p.count)) = _
    rw [laws4.merge_single acc (part_keypath p) p.count hwf, List.foldl_cons]
    exact ih (fun q hq => h q (List.mem_cons_of_mem _ hq)) _
      (laws4.wf_insert acc _ _ hwf)

theorem file_room_tree_atomic {parts : List MozaikPart}
    (h : ∀ p ∈ parts, atomic_part p = true) :
    file_room_tree parts = some (treeOf parts) :=
  foldlM_merge_atomic h Ops4.empty laws4.wf_empty

theorem wf_foldl_insert (parts : List MozaikPart) :
    ∀ acc, Ops4.WF acc →
    Ops4.WF (parts.foldl
      (fun t p => Ops4.insert t (part_keypath p) p.count) acc) := by
  induction parts with
  | nil => intro acc hwf; exact hwf
  | cons p rest ih =>
    intro acc hwf
    rw [List.foldl_cons]
    exact ih _ (laws4.wf_insert acc _ _ hwf)

theorem treeOf_WF (parts : List MozaikPart) : Ops4.WF (treeOf parts) :=
  wf_foldl_insert parts Ops4.empty laws4.wf_empty

theorem keypath_count_nil (k : Path4) : keypath_count [] k = 0 := rfl

theorem keypath_count_append (parts1 parts2 : List MozaikPart) (k : Path4) :
    keypath_count (parts1 ++ parts2) k =
      keypath_count parts1 k + keypath_count parts2 k := by
  rw [keypath_count, keypath_count, keypath_count, List.filter_append,
    List.map_append, List.sum_append]

theorem keypath_count_singleton (p : MozaikPart) (k : Path4) :
    keypath_count [p] k = if part_keypath p = k then p.count else 0 := by
  by_cases h : part_keypath p = k <;> simp [keypath_count, List.filter, h]

theorem keypath_count_eq_zero {parts : List MozaikPart} {k : Path4}
    (h : k ∉ parts.map part_keypath) : keypath_count parts k = 0 := by
  rw [keypath_count, List.filter_eq_nil_iff.mpr, List.map_nil, List.sum_nil]
  intro p hp
  simp only [decide_eq_true_eq]
  intro hcon
  exact h (List.mem_map.mpr ⟨p, hp, hcon⟩)

theorem treeOf_append_singleton (rest : List MozaikPart) (p : MozaikPart) :
    treeOf (rest ++ [p]) =
      Ops4.insert (treeOf rest) (part_keypath p) p.count := by
  rw [treeOf, treeOf, List.foldl_append, List.foldl_cons, List.foldl_nil]

theorem treeOf_lookup (parts : List MozaikPart) (k : Path4) :
    Ops4.lookup (treeOf parts) k =
      if k ∈ parts.map part_keypath then some (keypath_count parts k)
      else none := by
  induction parts using List.reverseRecOn with
  | nil =>
    rw [if_neg (by simp)]
    rfl
  | append_singleton rest p ih =>
    rw [treeOf_append_singleton]
    by_cases hk : k = part_keypath p
    · subst hk
      rw [laws4.lookup_insert_self (treeOf rest) _ p.count, ih,
        keypath_count_append, keypath_count_singleton, if_pos rfl]
      have hmem2 : part_keypath p ∈ (rest ++ [p]).map part_keypath := by
        rw [List.map_append]
        exact List.mem_append.mpr (Or.inr (by simp))
      by_cases hmem : part_keypath p ∈ rest.map part_keypath
      · rw [if_pos hmem, if_pos hmem2]
        rfl
      · rw [if_neg hmem, if_pos hmem2, keypath_count_eq_zero hmem]
        rfl
    · rw [laws4.lookup_insert_ne (treeOf rest) _ k p.count hk, ih,
        keypath_count_append, keypath_count_singleton,
        if_neg (show ¬(part_keypath p = k) from fun hcon => hk hcon.symm),
        add_zero]
      have hmm : (k ∈ (rest ++ [p]).map part_keypath) ↔
          k ∈ rest.map part_keypath := by
        rw [List.map_append, List.mem_append]
        constructor
        · rintro (h | h)
          · exact h
          · exfalso
            have hkk : k = part_keypath p := by simpa using h
            exact hk hkk
        · exact Or.inl
      by_cases hmem : k ∈ rest.map part_keypath
      · rw [if_pos hmem, if_pos (hmm.mpr hmem)]
      · rw [if_neg hmem, if_neg (fun hcon => hmem (hmm.mp hcon))]

theorem treeOf_emit_mem (parts : List MozaikPart) (k : Path4) (c : Int) :
    ((k, c) ∈ Ops4.emit (treeOf parts)) ↔
      (k ∈ parts.map part_keypath ∧ c = keypath_count parts k) := by
  rw [laws4.emit_mem _ k c (treeOf_WF parts), treeOf_lookup]
  by_cases hm : k ∈ parts.map part_keypath
  · simp [hm, eq_comm]
  · simp [hm]

/-! ## First-occurrence deduplication -/

theorem mem_firstDedup {α : Type} [DecidableEq α] {l : List α} {x : α} :
    x ∈ firstDedup l ↔ x ∈ l := by
  induction l with
  | nil => simp [firstDedup]
  | cons a t ih =>
    rw [firstDedup]
    by_cases hx : x = a
    · subst hx
      simp
    · simp [List.mem_filter, ih, hx]

theorem nodup_firstDedup {α : Type} [DecidableEq α] (l : List α) :
    (firstDedup l).Nodup := by
  induction l with
  | nil => exact List.nodup_nil
  | cons a t ih =>
    rw [firstDedup, List.nodup_cons]
    constructor
    · intro hm
      have := List.mem_filter.mp hm
      simp at this
    · exact List.Nodup.filter _ ih

theorem firstDedup_append_singleton {α : Type} [DecidableEq α]
    (l : List α) (x : α) :
    firstDedup (l ++ [x]) =
      if x ∈ l then firstDedup l else firstDedup l ++ [x] := by
  induction l with
  | nil => simp [firstDedup]
  | cons a t ih =>
    rw [List.cons_append, firstDedup, ih, firstDedup]
    by_cases hxt : x ∈ t
    · rw [if_pos hxt, if_pos (List.mem_cons_of_mem a hxt)]
    · rw [if_neg hxt, List.filter_append]
      by_cases hxa : x = a
      · subst hxa
        rw [if_pos (List.mem_cons_self x t)]
        simp
      · rw [if_neg (by
          intro hcon
          rcases List.mem_cons.mp hcon with h | h
          · exact hxa h
          · exact hxt h)]
        simp [hxa]

theorem firstDedup_perm {α : Type} [DecidableEq α] {l l' : List α}
    (h : l.Perm l') : (firstDedup l).Perm (firstDedup l') := by
  apply List.perm_of_nodup_nodup_toFinset_eq (nodup_firstDedup l)
    (nodup_firstDedup l')
  ext a
  rw [List.mem_toFinset, List.mem_toFinset, mem_firstDedup, mem_firstDedup]
  exact ⟨fun hm => h.mem_iff.mp hm, fun hm => h.mem_iff.mpr hm⟩

theorem treeOf_emit_perm (parts : List MozaikPart) :
    (Ops4.emit (treeOf parts)).Perm
      ((firstDedup (parts.map part_keypath)).map
        (fun k => (k, keypath_count parts k))) := by
  apply List.perm_of_nodup_nodup_toFinset_eq
  · exact List.Nodup.of_map _ (laws4.emit_fst_nodup _ (treeOf_WF parts))
  · exact List.Nodup.map (fun a b hab => congrArg Prod.fst hab)
      (nodup_firstDedup _)
  · ext e
    rw [List.mem_toFinset, List.mem_toFinset]
    constructor
    · intro he
      have h2 := (treeOf_emit_mem parts e.1 e.2).mp
        (by rw [Prod.mk.eta]; exact he)
      rw [List.mem_map]
      refine ⟨e.1, mem_firstDedup.mpr h2.1, ?_⟩
      rw [← h2.2, Prod.mk.eta]
    · intro he
      rw [List.mem_map] at he
      obtain ⟨k, hk, hke⟩ := he
      rw [← hke]
      exact (treeOf_emit_mem parts k _).mpr ⟨mem_firstDedup.mp hk, rfl⟩

/-! ## `combine_parts` on atomic parts with sane keys -/

theorem mapM_option_eq_map {α β : Type} {l : List α} {f : α → Option β}
    {g : α → β} (h : ∀ x ∈ l, f x = some (g x)) :
    l.mapM f = some (l.map g) := by
  induction l with
  | nil => rfl
  | cons a t ih =>
    rw [List.mapM_cons, h a (List.mem_cons_self a t),
      ih (fun x hx => h x (List.mem_cons_of_mem a hx))]
    rfl

theorem one_le_sum_of_mem {l : List Int} (h : ∀ x ∈ l, 1 ≤ x)
    (hne : l ≠ []) : 1 ≤ l.sum := by
  cases l with
  | nil => exact absurd rfl hne
  | cons a t =>
    rw [List.sum_cons]
    have h1 := h a (List.mem_cons_self a t)
    have h2 : 0 ≤ t.sum :=
      List.sum_nonneg (fun x hx => by
        have := h x (List.mem_cons_of_mem a hx)
        omega)
    omega

theorem keypath_count_pos {parts : List MozaikPart}
    (hpos : ∀ p ∈ parts, 1 ≤ p.count) {k : Path4}
    (hk : k ∈ parts.map part_keypath) : 1 ≤ keypath_count parts k := by
  rw [keypath_count]
  obtain ⟨p, hp, hkp⟩ := List.mem_map.mp hk
  apply one_le_sum_of_mem
  · intro x hx
    rw [List.mem_map] at hx
    obtain ⟨q, hq, hqx⟩ := hx
    rw [← hqx]
    exact hpos q (List.mem_of_mem_filter hq)
  · intro hcon
    have hpf : p ∈ parts.filter (fun p => part_keypath p = k) :=
      List.mem_filter.mpr ⟨hp, by simp [hkp]⟩
    rw [List.map_eq_nil] at hcon
    rw [hcon] at hpf
    exact absurd hpf (List.not_mem_nil p)

theorem combine_parts_eq {f : MozaikFile}
    (hat : ∀ p ∈ f.parts, atomic_part p = true)
    (hkey : ∀ k ∈ f.parts.map part_keypath, sane_key k = true)
    (hpos : ∀ p ∈ f.parts, 1 ≤ p.count) :
    combine_parts f = some { f with parts := combinedOf f.parts } := by
  rw [combine_parts, file_room_tree_atomic hat]
  show (to_mozaikparts (treeOf f.parts)).map _ = _
  rw [to_mozaikparts, mapM_option_eq_map (g := fun e => combined_part e.1 e.2)
    (fun e he => by
      have h2 := (treeOf_emit_mem f.parts e.1 e.2).mp
        (by rw [Prod.mk.eta]; exact he)
      have hk := hkey e.1 h2.1
      have hc : 1 ≤ e.2 := by
        rw [h2.2]
        exact keypath_count_pos hpos h2.1
      exact emittedPart_eq hk hc),
    Option.map_some']
  rfl

theorem similar_combined_false {k k' : Path4} {c c' : Int}
    (hk : sane_key k = true) (hk' : sane_key k' = true)
    (h1 : 1 ≤ c) (h1' : 1 ≤ c') (hne : k ≠ k') :
    similar_part (combined_part k c) (combined_part k' c') = false := by
  obtain ⟨q1, q2, q3, q4, q5, q6, q7, q8, q9, q10⟩ := sane_key_unfold hk
  obtain ⟨r1, r2, r3, r4, r5, r6, r7, r8, r9, r10⟩ := sane_key_unfold hk'
  simp only [similar_part, combined_part]
  by_cases hL : (some (orEmpty k.2.2.1) : Option Str) = some (orEmpty k'.2.2.1)
  · by_cases hT : (some (orEmpty k.2.2.2.2.1) : Option Str) =
        some (orEmpty k'.2.2.2.2.1)
    · by_cases hE : (some (orEmpty k.2.2.2.1) : Option Str) =
          some (orEmpty k'.2.2.2.1)
      · have hkL : k.2.2.1 = k'.2.2.1 := by
          rw [optStripInv_some q7, optStripInv_some r7]
          exact hL
        have hkT : k.2.2.2.2.1 = k'.2.2.2.2.1 := by
          rw [optStripInv_some q9, optStripInv_some r9]
          exact hT
        have hkE : k.2.2.2.1 = k'.2.2.2.1 := by
          rw [optStripInv_some q8, optStripInv_some r8]
          exact hE
        have htr : ¬(trim_cab_count (combined_location k.1 k.2.1 c) =
            trim_cab_count (combined_location k'.1 k'.2.1 c')) := by
          intro heq
          obtain ⟨hreq, hceq⟩ :=
            combined_trim_inj q5 q6 r5 r6 q3 q4 r3 r4 h1 h1' heq
          apply hne
          obtain ⟨kr, kc, kl, ke, kt, ku⟩ := k
          obtain ⟨kr', kc', kl', ke', kt', ku'⟩ := k'
          cases ku
          cases ku'
          simp only at hreq hceq hkL hkT hkE
          rw [hreq, hceq, hkL, hkT, hkE]
        rw [decide_eq_false htr, Bool.and_false]
      · rw [decide_eq_false hE]
        simp
    · rw [decide_eq_false hT]
      simp
  · rw [decide_eq_false hL]
    simp

/-- Claim C3: after `combine_parts` on a file of well-formed atomic parts
(quantity-annotated locations included), the parts are exactly one per
distinct key path with the accumulated count and the annotated location,
and no two of them are similar. -/
theorem claim_C3 (f : MozaikFile) (h : ∀ p ∈ f.parts, wf_part p = true) :
    ∃ g, combine_parts f = some g ∧
      g.parts.Perm (combined_parts_spec f.parts) ∧
      List.Pairwise (fun a b =>
        similar_part a b = false ∧ similar_part b a = false) g.parts := by
  have hat : ∀ p ∈ f.parts, atomic_part p = true :=
    fun p hp => (wf_part_unfold (h p hp)).1
  have hkey : ∀ k ∈ f.parts.map part_keypath, sane_key k = true := by
    intro k hk
    obtain ⟨p, hp, hkp⟩ := List.mem_map.mp hk
    rw [← hkp]
    exact (wf_part_unfold (h p hp)).2.1
  have hpos : ∀ p ∈ f.parts, 1 ≤ p.count :=
    fun p hp => (wf_part_unfold (h p hp)).2.2
  refine ⟨_, combine_parts_eq hat hkey hpos, ?_, ?_⟩
  · show ((Ops4.emit (treeOf f.parts)).map
      (fun e => combined_part e.1 e.2)).Perm (combined_parts_spec f.parts)
    have hp := (treeOf_emit_perm f.parts).map (fun e => combined_part e.1 e.2)
    rw [combined_parts_spec]
    refine hp.trans ?_
    rw [List.map_map]
    exact List.Perm.refl _
  · show List.Pairwise _ ((Ops4.emit (treeOf f.parts)).map
      (fun e => combined_part e.1 e.2))
    rw [List.pairwise_map]
    have hnd : ((Ops4.emit (treeOf f.parts)).map Prod.fst).Pairwise (· ≠ ·) :=
      laws4.emit_fst_nodup _ (treeOf_WF f.parts)
    have hnd' := List.pairwise_map.mp hnd
    refine hnd'.imp_of_mem ?_
    intro e e' he he' hee
    have h2 := (treeOf_emit_mem f.parts e.1 e.2).mp
      (by rw [Prod.mk.eta]; exact he)
    have h2' := (treeOf_emit_mem f.parts e'.1 e'.2).mp
      (by rw [Prod.mk.eta]; exact he')
    have hc : 1 ≤ e.2 := by
      rw [h2.2]
      exact keypath_count_pos hpos h2.1
    have hc' : 1 ≤ e'.2 := by
      rw [h2'.2]
      exact keypath_count_pos hpos h2'.1
    exact ⟨similar_combined_false (hkey e.1 h2.1) (hkey e'.1 h2'.1) hc hc' hee,
      similar_combined_false (hkey e'.1 h2'.1) (hkey e.1 h2.1) hc' hc
        (fun hcon => hee hcon.symm)⟩

/-- Witness: the spec's single-line-plus-annotated-line scenario — `R1:1`
with count 1, the annotated `R1:1(2)` with count 2 (same key path after
`trim_cab_count`), and a third part of a different cab — run through
`claim_C3`. -/
theorem claim_C3_witness :
    (∀ p ∈ ({ parts := [
        { count := 1, length := some (("10").toList),
          type := some (("TR").toList), no := (("R1:1").toList),
          extra_data := some (("E").toList) },
        { count := 2, length := some (("10").toList),
          type := some (("TR").toList), no := (("R1:1(2)").toList),
          extra_data := some (("E").toList) },
        { count := 1, length := some (("10").toList),
          type := some (("TR").toList), no := (("R1:2").toList),
          extra_data := some (("E").toList) }] } : MozaikFile).parts,
      wf_part p = true) ∧
    (∃ g, combine_parts ({ parts := [
        { count := 1, length := some (("10").toList),
          type := some (("TR").toList), no := (("R1:1").toList),
          extra_data := some (("E").toList) },
        { count := 2, length := some (("10").toList),
          type := some (("TR").toList), no := (("R1:1(2)").toList),
          extra_data := some (("E").toList) },
        { count := 1, length := some (("10").toList),
          type := some (("TR").toList), no := (("R1:2").toList),
          extra_data := some (("E").toList) }] } : MozaikFile) = some g ∧
      g.parts.Perm (combined_parts_spec [
        { count := 1, length := some (("10").toList),
          type := some (("TR").toList), no := (("R1:1").toList),
          extra_data := some (("E").toList) },
        { count := 2, length := some (("10").toList),
          type := some (("TR").toList), no := (("R1:1(2)").toList),
          extra_data := some (("E").toList) },
        { count := 1, length := some (("10").toList),
          type := some (("TR").toList), no := (("R1:2").toList),
          extra_data := some (("E").toList) }]) ∧
      List.Pairwise (fun a b =>
        similar_part a b = false ∧ similar_part b a = false) g.parts) :=
  ⟨by decide, claim_C3 _ (by decide)⟩

/-! ## Idempotence and order-independence of `combine_parts` -/

theorem keypath_count_cons (p : MozaikPart) (t : List MozaikPart) (k : Path4) :
    keypath_count (p :: t) k =
      (if part_keypath p = k then p.count else 0) + keypath_count t k := by
  rw [show p :: t = [p] ++ t from rfl, keypath_count_append,
    keypath_count_singleton]

theorem keypath_count_le_total {parts : List MozaikPart}
    (h0 : ∀ p ∈ parts, 0 ≤ p.count) (k : Path4) :
    keypath_count parts k ≤ (parts.map (fun p => p.count)).sum := by
  induction parts with
  | nil => simp [keypath_count_nil]
  | cons p t ih =>
    rw [keypath_count_cons, List.map_cons, List.sum_cons]
    have h0p := h0 p (List.mem_cons_self p t)
    have ih' := ih (fun q hq => h0 q (List.mem_cons_of_mem p hq))
    by_cases hkp : part_keypath p = k
    · rw [if_pos hkp]
      omega
    · rw [if_neg hkp]
      omega

theorem keypath_count_perm {parts parts2 : List MozaikPart}
    (h : parts2.Perm parts) (k : Path4) :
    keypath_count parts2 k = keypath_count parts k := by
  rw [keypath_count, keypath_count]
  exact ((h.filter _).map _).sum_eq

theorem foldl_congr_mem {α β : Type} {l : List α} {f g : β → α → β} {b : β}
    (h : ∀ x ∈ l, ∀ acc, f acc x = g acc x) : l.foldl f b = l.foldl g b := by
  induction l generalizing b with
  | nil => rfl
  | cons a t ih =>
    rw [List.foldl_cons, List.foldl_cons, h a (List.mem_cons_self a t)]
    exact ih (fun x hx acc => h x (List.mem_cons_of_mem a hx) acc)

theorem atomic_combined {k : Path4} {c : Int} (hk : sane_key k = true)
    (h1 : 1 ≤ c) : atomic_part (combined_part k c) = true := by
  obtain ⟨q1, q2, q3, q4, q5, q6, q7, q8, q9, q10⟩ := sane_key_unfold hk
  rw [atomic_part]
  show (!has_multi (combined_location k.1 k.2.1 c) &&
    decide ((pySplit (combined_location k.1 k.2.1 c) ':').length = 2)) = true
  rw [has_multi_combined q1, pySplit_combined q3 q4 h1]
  rfl

theorem part_keypath_combined {k : Path4} {c : Int} (hk : sane_key k = true)
    (h1 : 1 ≤ c) (h9 : c ≤ 999) : part_keypath (combined_part k c) = k := by
  obtain ⟨kr, kc, kl, ke, kt, ku⟩ := k
  cases ku
  obtain ⟨q1, q2, q3, q4, q5, q6, q7, q8, q9, q10⟩ := sane_key_unfold hk
  simp only at q1 q2 q3 q4 q5 q6 q7 q8 q9 q10
  rw [part_keypath]
  show (((pySplit (combined_location kr kc c) ':').headD []),
      trim_cab_count ((pySplit (combined_location kr kc c) ':').getD 1 []),
      some (orEmpty kl), some (orEmpty ke), some (orEmpty kt), ()) = _
  rw [pySplit_combined q3 q4 h1]
  show (kr, trim_cab_count
      (kc ++ (if c > 1 then '(' :: intToStr c ++ [')'] else [])),
      some (orEmpty kl), some (orEmpty ke), some (orEmpty kt), ()) = _
  rw [trim_cab_ann q6 h1, if_pos h9, ← optStripInv_some q7,
    ← optStripInv_some q8, ← optStripInv_some q9]

/-- Claim C6: on well-formed atomic parts (quantity-annotated locations
included), `combine_parts` is order-independent — every permutation of the
input parts yields some result whose parts are a permutation of the
original result's — and it is idempotent whenever the parts' total count
stays within the regex's three-digit annotation range. -/
theorem claim_C6 (f : MozaikFile) (h : ∀ p ∈ f.parts, wf_part p = true)
    (parts2 : List MozaikPart) (hperm : parts2.Perm f.parts) :
    ((f.parts.map (fun p => p.count)).sum ≤ 999 →
      (combine_parts f).bind combine_parts = combine_parts f) ∧
    (∃ g g2, combine_parts f = some g ∧
      combine_parts { f with parts := parts2 } = some g2 ∧
      g2.parts.Perm g.parts) := by
  have hat : ∀ p ∈ f.parts, atomic_part p = true :=
    fun p hp => (wf_part_unfold (h p hp)).1
  have hkey : ∀ k ∈ f.parts.map part_keypath, sane_key k = true := by
    intro k hk
    obtain ⟨p, hp, hkp⟩ := List.mem_map.mp hk
    rw [← hkp]
    exact (wf_part_unfold (h p hp)).2.1
  have hpos : ∀ p ∈ f.parts, 1 ≤ p.count :=
    fun p hp => (wf_part_unfold (h p hp)).2.2
  have hcomb := combine_parts_eq hat hkey hpos
  constructor
  · -- idempotence under the three-digit bound
    intro htot
    have hinfo : ∀ e ∈ Ops4.emit (treeOf f.parts),
        sane_key e.1 = true ∧ 1 ≤ e.2 ∧ e.2 ≤ 999 := by
      intro e he
      have h2 := (treeOf_emit_mem f.parts e.1 e.2).mp
        (by rw [Prod.mk.eta]; exact he)
      refine ⟨hkey e.1 h2.1, ?_, ?_⟩
      · rw [h2.2]
        exact keypath_count_pos hpos h2.1
      · rw [h2.2]
        exact le_trans
          (keypath_count_le_total
            (fun p hp => le_trans (by omega) (hpos p hp)) e.1)
          htot
    rw [hcomb]
    show combine_parts { f with parts := combinedOf f.parts } =
      some { f with parts := combinedOf f.parts }
    have hat2 : ∀ p ∈ combinedOf f.parts, atomic_part p = true := by
      intro p hp
      rw [combinedOf] at hp
      obtain ⟨e, he, hpe⟩ := List.mem_map.mp hp
      obtain ⟨hk, h1, _⟩ := hinfo e he
      rw [← hpe]
      exact atomic_combined hk h1
    have hkey2 : ∀ k ∈ (combinedOf f.parts).map part_keypath,
        sane_key k = true := by
      intro k hk
      rw [combinedOf, List.map_map, List.mem_map] at hk
      obtain ⟨e, he, hke⟩ := hk
      obtain ⟨hkk, h1, h9⟩ := hinfo e he
      rw [← hke]
      show sane_key (part_keypath (combined_part e.1 e.2)) = true
      rw [part_keypath_combined hkk h1 h9]
      exact hkk
    have hpos2 : ∀ p ∈ combinedOf f.parts, 1 ≤ p.count := by
      intro p hp
      rw [combinedOf] at hp
      obtain ⟨e, he, hpe⟩ := List.mem_map.mp hp
      obtain ⟨_, h1, _⟩ := hinfo e he
      rw [← hpe]
      exact h1
    have h2 := combine_parts_eq (f := { f with parts := combinedOf f.parts })
      hat2 hkey2 hpos2
    rw [h2]
    have htree2 : treeOf (combinedOf f.parts) = treeOf f.parts := by
      rw [combinedOf, treeOf, List.foldl_map]
      rw [foldl_congr_mem (g := fun a (e : Path4 × Int) =>
        Ops4.insert a e.1 e.2) (fun e he acc => by
          obtain ⟨hk, h1, h9⟩ := hinfo e he
          rw [show (combined_part e.1 e.2).count = e.2 from rfl,
            part_keypath_combined hk h1 h9])]
      exact laws4.rebuild (treeOf f.parts) (treeOf_WF f.parts)
    have hCC : combinedOf (combinedOf f.parts) = combinedOf f.parts := by
      rw [combinedOf, htree2]
      rfl
    rw [show ({ f with parts := combinedOf f.parts } : MozaikFile).parts =
      combinedOf f.parts from rfl, hCC]
  · -- order-independence
    have hat' : ∀ p ∈ parts2, atomic_part p = true :=
      fun p hp => hat p (hperm.mem_iff.mp hp)
    have hkey' : ∀ k ∈ parts2.map part_keypath, sane_key k = true := by
      intro k hk
      obtain ⟨p, hp, hkp⟩ := List.mem_map.mp hk
      rw [← hkp]
      exact hkey (part_keypath p)
        (List.mem_map.mpr ⟨p, hperm.mem_iff.mp hp, rfl⟩)
    have hpos' : ∀ p ∈ parts2, 1 ≤ p.count :=
      fun p hp => hpos p (hperm.mem_iff.mp hp)
    have hcomb2 := combine_parts_eq (f := { f with parts := parts2 })
      hat' hkey' hpos'
    refine ⟨_, _, hcomb, hcomb2, ?_⟩
    show ((Ops4.emit (treeOf (({ f with parts := parts2 } : MozaikFile)).parts)).map
      (fun e => combined_part e.1 e.2)).Perm
      ((Ops4.emit (treeOf f.parts)).map (fun e => combined_part e.1 e.2))
    rw [show (({ f with parts := parts2 } : MozaikFile)).parts = parts2 from rfl]
    apply List.Perm.map
    have e2 := treeOf_emit_perm parts2
    have e1 := treeOf_emit_perm f.parts
    have hcnt : (firstDedup (parts2.map part_keypath)).map
        (fun k => (k, keypath_count parts2 k)) =
        (firstDedup (parts2.map part_keypath)).map
        (fun k => (k, keypath_count f.parts k)) :=
      List.map_congr_left (fun k _ => by rw [keypath_count_perm hperm])
    rw [hcnt] at e2
    have hfd := (firstDedup_perm (hperm.map part_keypath)).map
      (fun k => (k, keypath_count f.parts k))
    exact (e2.trans hfd).trans e1.symm

/-- Counterexample for the unbounded idempotence claim: two sane copies of
`R1:1` with count 500 combine to one part `R1:1(1000)`; re-combining keeps
the four-digit annotation (the trim regex only strips 1-3 digits) and
annotates again, so the second combine differs from the first. -/
theorem claim_C6_cex :
    (∀ p ∈ ({ parts := [
        { count := 500, length := some (("10").toList),
          type := some (("TR").toList), no := (("R1:1").toList),
          extra_data := some (("E").toList) },
        { count := 500, length := some (("10").toList),
          type := some (("TR").toList), no := (("R1:1").toList),
          extra_data := some (("E").toList) }] } : MozaikFile).parts,
      sane_part p = true) ∧
    ((combine_parts ({ parts := [
        { count := 500, length := some (("10").toList),
          type := some (("TR").toList), no := (("R1:1").toList),
          extra_data := some (("E").toList) },
        { count := 500, length := some (("10").toList),
          type := some (("TR").toList), no := (("R1:1").toList),
          extra_data := some (("E").toList) }] } : MozaikFile)).bind
        combine_parts ≠
      combine_parts ({ parts := [
        { count := 500, length := some (("10").toList),
          type := some (("TR").toList), no := (("R1:1").toList),
          extra_data := some (("E").toList) },
        { count := 500, length := some (("10").toList),
          type := some (("TR").toList), no := (("R1:1").toList),
          extra_data := some (("E").toList) }] } : MozaikFile)) := by
  constructor
  · decide
  · decide

/-- Witness: a concrete two-row file (one row quantity-annotated) within
the count bound, with the two rows also supplied in reversed order, run
through both conjuncts of `claim_C6`. -/
theorem claim_C6_witness :
    ((∀ p ∈ ({ parts := [
        { count := 2, length := some (("10").toList),
          type := some (("TR").toList), no := (("R1:1").toList),
          extra_data := some (("E").toList) },
        { count := 3, length := some (("10").toList),
          type := some (("TR").toList), no := (("R1:2(3)").toList),
          extra_data := some (("E").toList) }] } : MozaikFile).parts,
      wf_part p = true) ∧
     ([
        { count := 3, length := some (("10").toList),
          type := some (("TR").toList), no := (("R1:2(3)").toList),
          extra_data := some (("E").toList) },
        { count := 2, length := some (("10").toList),
          type := some (("TR").toList), no := (("R1:1").toList),
          extra_data := some (("E").toList) }] : List MozaikPart).Perm
       ({ parts := [
        { count := 2, length := some (("10").toList),
          type := some (("TR").toList), no := (("R1:1").toList),
          extra_data := some (("E").toList) },
        { count := 3, length := some (("10").toList),
          type := some (("TR").toList), no := (("R1:2(3)").toList),
          extra_data := some (("E").toList) }] } : MozaikFile).parts ∧
     (({ parts := [
        { count := 2, length := some (("10").toList),
          type := some (("TR").toList), no := (("R1:1").toList),
          extra_data := some (("E").toList) },
        { count := 3, length := some (("10").toList),
          type := some (("TR").toList), no := (("R1:2(3)").toList),
          extra_data := some (("E").toList) }] } : MozaikFile).parts.map
       (fun p => p.count)).sum ≤ 999) ∧
    (((combine_parts ({ parts := [
        { count := 2, length := some (("10").toList),
          type := some (("TR").toList), no := (("R1:1").toList),
          extra_data := some (("E").toList) },
        { count := 3, length := some (("10").toList),
          type := some (("TR").toList), no := (("R1:2(3)").toList),
          extra_data := some (("E").toList) }] } : MozaikFile)).bind
        combine_parts =
      combine_parts ({ parts := [
        { count := 2, length := some (("10").toList),
          type := some (("TR").toList), no := (("R1:1").toList),
          extra_data := some (("E").toList) },
        { count := 3, length := some (("10").toList),
          type := some (("TR").toList), no := (("R1:2(3)").toList),
          extra_data := some (("E").toList) }] } : MozaikFile)) ∧
     (∃ g g2, combine_parts ({ parts := [
        { count := 2, length := some (("10").toList),
          type := some (("TR").toList), no := (("R1:1").toList),
          extra_data := some (("E").toList) },
        { count := 3, length := some (("10").toList),
          type := some (("TR").toList), no := (("R1:2(3)").toList),
          extra_data := some (("E").toList) }] } : MozaikFile) = some g ∧
      combine_parts { ({ parts := [
        { count := 2, length := some (("10").toList),
          type := some (("TR").toList), no := (("R1:1").toList),
          extra_data := some (("E").toList) },
        { count := 3, length := some (("10").toList),
          type := some (("TR").toList), no := (("R1:2(3)").toList),
          extra_data := some (("E").toList) }] } : MozaikFile) with
        parts := ([
        { count := 3, length := some (("10").toList),
          type := some (("TR").toList), no := (("R1:2(3)").toList),
          extra_data := some (("E").toList) },
        { count := 2, length := some (("10").toList),
          type := some (("TR").toList), no := (("R1:1").toList),
          extra_data := some (("E").toList) }] : List MozaikPart) } = some g2 ∧
      g2.parts.Perm g.parts)) :=
  ⟨⟨by decide, by decide, by decide⟩,
    (claim_C6 ({ parts := [
        { count := 2, length := some (("10").toList),
          type := some (("TR").toList), no := (("R1:1").toList),
          extra_data := some (("E").toList) },
        { count := 3, length := some (("10").toList),
          type := some (("TR").toList), no := (("R1:2(3)").toList),
          extra_data := some (("E").toList) }] } : MozaikFile) (by decide)
      ([
        { count := 3, length := some (("10").toList),
          type := some (("TR").toList), no := (("R1:2(3)").toList),
          extra_data := some (("E").toList) },
        { count := 2, length := some (("10").toList),
          type := some (("TR").toList), no := (("R1:1").toList),
          extra_data := some (("E").toList) }] : List MozaikPart) (by decide)).1 (by decide),
    (claim_C6 ({ parts := [
        { count := 2, length := some (("10").toList),
          type := some (("TR").toList), no := (("R1:1").toList),
          extra_data := some (("E").toList) },
        { count := 3, length := some (("10").toList),
          type := some (("TR").toList), no := (("R1:2(3)").toList),
          extra_data := some (("E").toList) }] } : MozaikFile) (by decide)
      ([
        { count := 3, length := some (("10").toList),
          type := some (("TR").toList), no := (("R1:2(3)").toList),
          extra_data := some (("E").toList) },
        { count := 2, length := some (("10").toList),
          type := some (("TR").toList), no := (("R1:1").toList),
          extra_data := some (("E").toList) }] : List MozaikPart) (by decide)).2⟩

/-! ## Width grouping: `into_width_files` -/

theorem groupFold_snoc (parts : List MozaikPart) (p : MozaikPart) :
    groupFold (parts ++ [p]) =
      updateA p.width
        (fun o =>
          let f := o.getD { width := widthOr0 p.width }
          { f with parts := f.parts ++ [wpartOf p], count := f.count + (wpartOf p).count })
        (groupFold parts) := by
  rw [groupFold, groupFold, List.foldl_append, List.foldl_cons, List.foldl_nil]

theorem filter_width_append (parts : List MozaikPart) (p : MozaikPart)
    (w : Option Str) :
    (parts ++ [p]).filter (fun q => q.width = w) =
      parts.filter (fun q => q.width = w) ++ (if p.width = w then [p] else []) := by
  rw [List.filter_append]
  congr 1
  by_cases h : p.width = w <;> simp [List.filter, h]

theorem alookup_groupFold (parts : List MozaikPart) (w : Option Str) :
    alookup w (groupFold parts) =
      if w ∈ parts.map (fun p => p.width) then some (spec_group_file parts w)
      else none := by
  induction parts using List.reverseRecOn with
  | nil =>
    rw [if_neg (by simp)]
    rfl
  | append_singleton parts p ih =>
    rw [groupFold_snoc]
    by_cases hw : w = p.width
    · subst hw
      rw [alookup_updateA_self, ih]
      have hmem2 : p.width ∈ (parts ++ [p]).map (fun q => q.width) := by
        rw [List.map_append]
        exact List.mem_append.mpr (Or.inr (by simp))
      rw [if_pos hmem2]
      by_cases hmem : p.width ∈ parts.map (fun q => q.width)
      · rw [if_pos hmem]
        congr 1
        simp [spec_group_file, filter_width_append]
      · rw [if_neg hmem]
        congr 1
        have hfilter : parts.filter (fun q => q.width = p.width) = [] :=
          List.filter_eq_nil_iff.mpr (fun q hq => by
            simp only [decide_eq_true_eq]
            intro hcon
            exact hmem (List.mem_map.mpr ⟨q, hq, hcon⟩))
        simp [spec_group_file, filter_width_append, hfilter]
    · rw [alookup_updateA_ne hw, ih]
      have hmm : w ∈ (parts ++ [p]).map (fun q => q.width) ↔
          w ∈ parts.map (fun q => q.width) := by
        rw [List.map_append, List.mem_append]
        constructor
        · rintro (h | h)
          · exact h
          · exfalso
            apply hw
            simpa using h
        · exact Or.inl
      have hspec : spec_group_file (parts ++ [p]) w = spec_group_file parts w := by
        have hne : ¬(p.width = w) := fun hcon => hw hcon.symm
        simp [spec_group_file, filter_width_append, hne]
      by_cases hmem : w ∈ parts.map (fun q => q.width)
      · rw [if_pos hmem, if_pos (hmm.mpr hmem), hspec]
      · rw [if_neg hmem, if_neg (fun hcon => hmem (hmm.mp hcon))]

theorem keys_groupFold (parts : List MozaikPart) :
    (groupFold parts).map Prod.fst =
      firstDedup (parts.map (fun p => p.width)) := by
  induction parts using List.reverseRecOn with
  | nil => rfl
  | append_singleton parts p ih =>
    rw [groupFold_snoc, keys_updateA, ih, List.map_append, List.map_singleton,
      firstDedup_append_singleton]
    by_cases hmem : p.width ∈ parts.map (fun q => q.width)
    · rw [if_pos (mem_firstDedup.mpr hmem), if_pos hmem]
    · rw [if_neg (fun hcon => hmem (mem_firstDedup.mp hcon)), if_neg hmem]

theorem mem_insertSorted {x y : Option Str} {l : List (Option Str)} :
    y ∈ insertSorted x l ↔ y = x ∨ y ∈ l := by
  induction l with
  | nil => simp [insertSorted]
  | cons z zs ih =>
    rw [insertSorted]
    by_cases h : optStrLe x z
    · rw [if_pos h]
      simp
    · rw [if_neg h]
      rw [List.mem_cons, ih, List.mem_cons]
      tauto

theorem mem_sortKeys {l : List (Option Str)} {y : Option Str} :
    y ∈ sortKeys l ↔ y ∈ l := by
  induction l with
  | nil => simp [sortKeys]
  | cons x t ih =>
    have hstep : sortKeys (x :: t) = insertSorted x (sortKeys t) := rfl
    rw [hstep, mem_insertSorted, ih, List.mem_cons]

theorem filterMap_eq_map_of_some {α β : Type} {l : List α} {f : α → Option β}
    {g : α → β} (h : ∀ x ∈ l, f x = some (g x)) :
    l.filterMap f = l.map g := by
  induction l with
  | nil => rfl
  | cons a t ih =>
    rw [List.filterMap_cons, h a (List.mem_cons_self a t),
      ih (fun x hx => h x (List.mem_cons_of_mem a hx)), List.map_cons]

theorem mapM_map_option {α β γ : Type} (f : α → β) (g : β → Option γ)
    (l : List α) :
    (l.map f).mapM g = l.mapM (fun x => g (f x)) := by
  induction l with
  | nil => rfl
  | cons a t ih =>
    rw [List.map_cons, List.mapM_cons, List.mapM_cons, ih]

theorem into_width_files_eq (mf : MozaikMasterFile) :
    into_width_files mf =
      if mf.parts = [] then some []
      else ((sortKeys ((groupFold mf.parts).map Prod.fst)).filterMap
        (fun w => alookup w (groupFold mf.parts))).mapM combine_parts := rfl

/-- Claim C5: `into_width_files` groups the parts by width (one file per
distinct width, in ascending string order of the width keys), strips the
width from each copied part, accumulates the group count, combines every
group, and returns the empty sequence on an empty master file — i.e. it
agrees exactly with the specification-side description. -/
theorem claim_C5 (mf : MozaikMasterFile) :
    into_width_files mf = into_width_files_spec mf := by
  rw [into_width_files_eq, into_width_files_spec]
  by_cases hz : mf.parts = []
  · rw [if_pos hz, if_pos hz]
  · rw [if_neg hz, if_neg hz, keys_groupFold,
      filterMap_eq_map_of_some (g := fun w => spec_group_file mf.parts w)
        (fun w hw => by
          rw [alookup_groupFold,
            if_pos (mem_firstDedup.mp (mem_sortKeys.mp hw))]),
      mapM_map_option]

end TT
